/-
Verification of the workspace-tracker core of this repository.

The development shallowly embeds the two source files
  src/integrations/workspace/WorkspaceTracker.ts
  src/services/glob/git-ignore.ts
into Lean.  Pure helpers of the Node `path` module (posix flavour) that the
code relies on are modelled faithfully at the string level; the external
collaborators of the spec (the filesystem watcher, the directory lister, the
gitignore and glob pattern matchers, the stat probe, the WebView consumer)
are parameters of the model, as the spec treats them as black boxes.
JavaScript `Set<string>` objects are modelled as duplicate-free lists kept in
insertion order, matching Set iteration semantics.
-/
import Mathlib

set_option linter.unusedVariables false
set_option maxRecDepth 40000

namespace Cline

/-! Node path module, posix flavour: character-level helpers. -/

/-- Split a character list at every slash (semantics of `"…".split("/")`). -/
def splitSlash : List Char → List (List Char)
  | [] => [[]]
  | c :: cs =>
    if c = '/' then [] :: splitSlash cs
    else
      match splitSlash cs with
      | [] => [[c]]
      | g :: gs => (c :: g) :: gs

/-- Join components with slashes (semantics of `parts.join("/")`). -/
def joinSlash : List (List Char) → List Char
  | [] => []
  | [c] => c
  | c :: cs => c ++ '/' :: joinSlash cs

/-- The component loop of Node `path.posix` normalization for absolute paths:
empty and `.` components are dropped, `..` pops the accumulator. -/
def resolveComps (acc : List (List Char)) : List (List Char) → List (List Char)
  | [] => acc
  | c :: rest =>
    if c = [] ∨ c = ['.'] then resolveComps acc rest
    else if c = ['.', '.'] then resolveComps acc.dropLast rest
    else resolveComps (acc ++ [c]) rest

/-- Model of Node `path.resolve(base, p)` (posix), with `base` the absolute
resolution base (the workspace folder, else the process working directory). -/
def posixResolve (base p : String) : String :=
  let full := if p.data.head? = some '/' then p.data else base.data ++ '/' :: p.data
  ⟨'/' :: joinSlash (resolveComps [] (splitSlash full))⟩

/-- Whether a path string ends with the directory-marker separator. -/
def endsWithSlash (s : String) : Bool :=
  match s.data.getLast? with
  | some c => c == '/'
  | none => false

/-- `WorkspaceTracker.normalizeFilePath`:
`path.resolve` against the workspace root, re-appending the trailing slash
when the raw input carried one. -/
def normalizeFilePath (base filePath : String) : String :=
  let resolvedPath := posixResolve base filePath
  if endsWithSlash filePath then resolvedPath ++ "/" else resolvedPath

/-- Model of Node `path.posix.dirname`, following the Node implementation:
scan from the end (indices down to 1), skip trailing slashes, cut at the next
slash; special cases for no slash found and for a `//`-rooted result. -/
def dirname (p : String) : String :=
  match p.data with
  | [] => "."
  | c0 :: rest =>
    let rt := ((rest.reverse.dropWhile (fun c => c = '/')).dropWhile (fun c => c ≠ '/'))
    if rt = [] then (if c0 = '/' then "/" else ".")
    else if c0 = '/' ∧ rt.length = 1 then "//"
    else ⟨(c0 :: rest).take rt.length⟩

/-- Model of Node `path.posix.basename` (no extension argument):
drop trailing slashes, then take the final slash-free segment. -/
def basename (p : String) : String :=
  let r := p.data.reverse.dropWhile (fun c => c = '/')
  ⟨(r.takeWhile (fun c => c ≠ '/')).reverse⟩

/-- Model of `path.join(dir, file)` for the normalized directories the walk
produces: insert a separator unless one is already present. -/
def joinPath (d f : String) : String :=
  if endsWithSlash d then d ++ f else d ++ "/" ++ f

/-- Model of `path.parse(p).root` (posix): `"/"` for absolute paths, else `""`. -/
def parseRoot (p : String) : String :=
  if p.data.head? = some '/' then "/" else ""

/-- Model of the repository `String.toPosix` extension: replace backslashes. -/
def toPosix (s : String) : String :=
  ⟨s.data.map (fun c => if c = '\\' then '/' else c)⟩

/-- Length of the common component head of two component lists. -/
def countCommon : List (List Char) → List (List Char) → Nat
  | a :: as, b :: bs => if a = b then countCommon as bs + 1 else 0
  | _, _ => 0

/-- Model of Node `path.posix.relative(from, to)`: resolve both, strip the
common component head, climb with `..` segments, descend with the rest. -/
def relativePosix (base fromP toP : String) : String :=
  let f := posixResolve base fromP
  let t := posixResolve base toP
  if f = t then "" else
    let fc := (splitSlash f.data).filter (fun c => c ≠ [])
    let tc := (splitSlash t.data).filter (fun c => c ≠ [])
    let common := countCommon fc tc
    ⟨joinSlash (List.replicate (fc.length - common) ['.', '.'] ++ tc.drop common)⟩

/-- A path component produced by resolution: nonempty, not a dot entry, and
slash-free. -/
def goodComp (c : List Char) : Prop :=
  c ≠ [] ∧ c ≠ ['.'] ∧ c ≠ ['.', '.'] ∧ '/' ∉ c

/-! JavaScript `Set<string>` model: duplicate-free list in insertion order. -/

/-- `set.add(x)`: append unless present (re-adding does not move an entry). -/
def setAdd (l : List String) (x : String) : List String :=
  if x ∈ l then l else l ++ [x]

/-- `set.delete(x)`: remove the (unique) occurrence when present. -/
def setDel : List String → String → List String
  | [], _ => []
  | y :: ys, x => if y = x then ys else y :: setDel ys x

/-! # GitIgnoreProcessor (src/services/glob/git-ignore.ts) -/

/-- The ignore-file name used by the processor. -/
def gitignoreName : String := ".gitignore"

/-- External collaborators of the ignore-rule engine: the filesystem view of
`.gitignore` files (`none` is absent-or-unreadable, which contribute no
rules), the black-box `ignore` pattern matcher applied to the list of added
rule contents, the black-box `micromatch.isMatch` with the dot option, and
the process resolution base used by `path.relative`. -/
structure GitIgnoreEnv where
  gfs : String → Option String
  ignoresMatch : List String → String → Bool
  globMatch : String → List String → Bool
  procBase : String

/-- The `gitignoreCache` map: directory to list of rule-file contents, newest
binding first (`Map.set` shadows). -/
abbrev IgnCache := List (String × List String)

/-- The while loop of `getGitignoreRulesForPath`: walk up from `cur` while it
still starts with the workspace path and is not the filesystem root,
appending the contents of each directory `.gitignore`, breaking at the
workspace root.  The loop is given explicit fuel; every terminating run of
the source loop is reproduced with fuel at least the directory length. -/
def collectGitignore (env : GitIgnoreEnv) (ws : String) : Nat → String → List String → List String
  | 0, _, acc => acc
  | fuel + 1, cur, acc =>
    if cur.startsWith ws = true ∧ cur ≠ parseRoot cur then
      let acc2 :=
        match env.gfs (joinPath cur gitignoreName) with
        | some content => acc ++ [content]
        | none => acc
      if cur = ws then acc2
      else collectGitignore env ws fuel (dirname cur) acc2
    else acc

/-- The chain of ancestor directories the walk visits, from the probed
directory up to the project root, stated independently of the accumulator
(used to compare the code with the words of the spec). -/
def ancestorsUpTo (ws : String) : Nat → String → List String
  | 0, _ => []
  | fuel + 1, cur =>
    if cur.startsWith ws = true ∧ cur ≠ parseRoot cur then
      cur :: (if cur = ws then [] else ancestorsUpTo ws fuel (dirname cur))
    else []

/-- Modelled from the words of the spec: the merged ruleset for a directory
is the gathered contents of each ancestor `.gitignore` file, walking from the
directory up to the project root. -/
def specMergedRules (env : GitIgnoreEnv) (ws : String) (fuel : Nat) (dir : String) : List String :=
  (ancestorsUpTo ws fuel dir).filterMap (fun d => env.gfs (joinPath d gitignoreName))

/-- `GitIgnoreProcessor.getGitignoreRulesForPath`: consult the cache, else
run the ancestor walk and cache the result. -/
def getGitignoreRulesForPath (env : GitIgnoreEnv) (ws dir : String) (cache : IgnCache) :
    List String × IgnCache :=
  match List.lookup dir cache with
  | some rules => (rules, cache)
  | none =>
    let rules := collectGitignore env ws (dir.length + 1) dir []
    (rules, (dir, rules) :: cache)

/-- `GitIgnoreProcessor.shouldIgnoreFile`: gitignore rules of the containing
directory first, then the exclusion globs. -/
def shouldIgnoreFile (env : GitIgnoreEnv) (ws filePath : String) (exclusionGlobs : List String)
    (cache : IgnCache) : Bool × IgnCache :=
  let fileDir := dirname filePath
  let r := getGitignoreRulesForPath env ws fileDir cache
  if env.ignoresMatch r.1 (relativePosix env.procBase fileDir filePath) then (true, r.2)
  else (env.globMatch filePath exclusionGlobs, r.2)

/-! # WorkspaceTracker (src/integrations/workspace/WorkspaceTracker.ts) -/

/-- `WorkspaceTracker.DEBOUNCE_DELAY` in milliseconds. -/
def DEBOUNCE_DELAY : Nat := 1000

/-- `WorkspaceTracker.EVENT_FLOOD_SZ`. -/
def EVENT_FLOOD_SZ : Nat := 100

/-- The `maxContextFiles` constant used by the re-scan and the notification. -/
def maxContextFiles : Nat := 1000

/-- External collaborators of the tracker: the optional workspace folder, the
process working directory (the resolution base when no workspace folder is
configured), the `vscode.workspace.fs.stat` probe keyed by normalized path
(`some isDirectory` on success, `none` when the probe rejects), the combined
`shouldIgnoreGlob` filter (gitignore rules plus configured exclusion globs,
a black box at tracker level), the `listFiles` directory lister keyed by the
requested entry cap, and whether the weakly-referenced provider is alive. -/
structure Env where
  cwd : Option String
  procCwd : String
  statResult : String → Option Bool
  ignoreGlob : String → Bool
  listFilesAt : Nat → List String
  providerAlive : Bool

/-- The base directory against which `normalizeFilePath` resolves. -/
def Env.base (env : Env) : String := env.cwd.getD env.procCwd

/-- The mutable fields of the tracker (plus the observable message log and
an abstract view of the gitignore cache as its set of cached directories). -/
structure TrackerState where
  filePaths : List String
  needReInit : Bool
  eventCount : Nat
  gitIgnoreCacheDirs : List String
  timerActive : Bool
  messages : List (List String)

/-- The tracker state at construction. -/
def initTrackerState : TrackerState :=
  { filePaths := [], needReInit := false, eventCount := 0,
    gitIgnoreCacheDirs := [], timerActive := false, messages := [] }

/-- `incrementEventAndDetectFlood`: post-increment compare, so the flag is
raised when the counter value before the increment exceeds the threshold. -/
def incrementEventAndDetectFlood (s : TrackerState) : TrackerState :=
  { s with eventCount := s.eventCount + 1,
           needReInit := if s.eventCount > EVENT_FLOOD_SZ then true else s.needReInit }

/-- `triggerWorkspaceDidUpdate`: cancel any pending debounce timer and arm a
fresh one. -/
def triggerWorkspaceDidUpdate (s : TrackerState) : TrackerState :=
  { s with timerActive := true }

/-- The message payload of `workspaceDidUpdate`: the tracked paths capped at
`maxContextFiles`, made relative to the workspace root in posix form, with
the trailing slash of directories retained. -/
def payload (c : String) (fps : List String) : List String :=
  (fps.take maxContextFiles).map (fun file =>
    let relativePath := toPosix (relativePosix c c file)
    if endsWithSlash file then relativePath ++ "/" else relativePath)

/-- `workspaceDidUpdate`: no-op without a workspace folder; otherwise post
the snapshot to the provider when the weak reference is still alive. -/
def workspaceDidUpdate (env : Env) (s : TrackerState) : TrackerState :=
  match env.cwd with
  | none => s
  | some c =>
    if env.providerAlive then { s with messages := s.messages ++ [payload c s.filePaths] }
    else s

/-- `addFilePath`: normalize, probe; on success mark directories with the
trailing slash, flag re-init for directories and for `.gitignore` entries
(clearing the rule cache); when the probe rejects, add the normalized path
unchanged. -/
def addFilePath (env : Env) (filePath : String) (s : TrackerState) : TrackerState :=
  let normalizedPath := normalizeFilePath env.base filePath
  match env.statResult normalizedPath with
  | some isDirectory =>
    let pathWithSlash :=
      if isDirectory && !(endsWithSlash normalizedPath) then normalizedPath ++ "/"
      else normalizedPath
    let s1 := if isDirectory then { s with needReInit := true } else s
    let s2 :=
      if basename normalizedPath = gitignoreName then
        { s1 with gitIgnoreCacheDirs := [], needReInit := true }
      else s1
    { s2 with filePaths := setAdd s2.filePaths pathWithSlash }
  | none => { s with filePaths := setAdd s.filePaths normalizedPath }

/-- `removeFilePath`: normalize, delete the plain entry; when that entry was
absent flag re-init; `.gitignore` entries clear the rule cache and flag
re-init; when the plain delete failed, additionally try the
directory-suffixed entry.  Returns whether any delete removed an entry. -/
def removeFilePath (env : Env) (filePath : String) (s : TrackerState) : TrackerState × Bool :=
  let normalizedPath := normalizeFilePath env.base filePath
  let isFile := decide (normalizedPath ∈ s.filePaths)
  let s1 := { s with filePaths := setDel s.filePaths normalizedPath }
  let s2 := if isFile then s1 else { s1 with needReInit := true }
  let s3 :=
    if basename normalizedPath = gitignoreName then
      { s2 with gitIgnoreCacheDirs := [], needReInit := true }
    else s2
  if isFile then (s3, true)
  else ({ s3 with filePaths := setDel s3.filePaths (normalizedPath ++ "/") },
        decide ((normalizedPath ++ "/") ∈ s3.filePaths))

/-- `initializeFilePaths`: no-op without a workspace folder; otherwise clear
the path set, repopulate it with the normalized bounded listing, clear the
re-init flag and notify immediately. -/
def initializeFilePaths (env : Env) (s : TrackerState) : TrackerState :=
  match env.cwd with
  | none => s
  | some _ =>
    let files := env.listFilesAt maxContextFiles
    let paths := files.foldl (fun acc file => setAdd acc (normalizeFilePath env.base file)) []
    workspaceDidUpdate env { s with filePaths := paths, needReInit := false }

/-- A raw filesystem watcher event. -/
inductive WatcherEvent where
  | created : String → WatcherEvent
  | deleted : String → WatcherEvent
  | changed : String → WatcherEvent

/-- The full effect of the `onDidCreate` handler task. -/
def onCreateEffect (env : Env) (p : String) (s : TrackerState) : TrackerState :=
  let s1 := incrementEventAndDetectFlood s
  if env.ignoreGlob p then s1
  else triggerWorkspaceDidUpdate (addFilePath env p s1)

/-- The full effect of the `onDidDelete` handler task: the debounce timer is
triggered only when `removeFilePath` reports a removal. -/
def onDeleteEffect (env : Env) (p : String) (s : TrackerState) : TrackerState :=
  let s1 := incrementEventAndDetectFlood s
  if env.ignoreGlob p then s1
  else
    let r := removeFilePath env p s1
    if r.2 then triggerWorkspaceDidUpdate r.1 else r.1

/-- The full effect of the `onDidChange` handler task. -/
def onChangeEffect (env : Env) (p : String) (s : TrackerState) : TrackerState :=
  let s1 := incrementEventAndDetectFlood s
  if env.ignoreGlob p then s1
  else triggerWorkspaceDidUpdate (addFilePath env p (removeFilePath env p s1).1)

/-- Dispatch one raw watcher event to its handler effect. -/
def applyEvent (env : Env) (e : WatcherEvent) (s : TrackerState) : TrackerState :=
  match e with
  | .created p => onCreateEffect env p s
  | .deleted p => onDeleteEffect env p s
  | .changed p => onChangeEffect env p s

/-- Apply a sequence of raw watcher events in order (the serialized queue
semantics within one debounce window, no timer fire in between). -/
def applyEvents (env : Env) (evs : List WatcherEvent) (s : TrackerState) : TrackerState :=
  evs.foldl (fun s e => applyEvent env e s) s

/-- What the debounce-timer callback does on fire. -/
inductive FireOutcome where
  | enqueueRescan : FireOutcome
  | directNotify : FireOutcome
deriving DecidableEq

/-- The debounce-timer callback: when the re-init flag is set, enqueue a full
re-scan as the next sequenced task; otherwise deliver the snapshot directly.
The event counter resets on every fire. -/
def timerFire (env : Env) (s : TrackerState) : TrackerState × FireOutcome :=
  if s.needReInit then ({ s with eventCount := 0 }, .enqueueRescan)
  else ({ workspaceDidUpdate env s with eventCount := 0 }, .directNotify)

/-! # EventSequencer (addEventToNotifyQueue)

`addEventToNotifyQueue` chains every submitted task onto a single pending
promise with its own failure handler:

  this.notifyQueue = this.notifyQueue.then(() => task()).catch((err) => {})

The model below is a small-step machine over cooperative asynchronous
execution.  A task is the list of code slices between its suspension points;
a slice maps the shared state to `some` new state, or to `none` when it
throws or rejects (the rest of the task is then skipped and the attached
catch handler settles the link).  A scheduler step may run the next pending
slice of any task whose chain predecessors have all settled, which is
exactly the enabling discipline of promise chaining.  Scheduling delays
(such as a slow stat probe) appear as the freedom to take steps in any
admissible order, so theorems quantified over all runs hold regardless of
how long each suspension takes. -/

/-- One synchronous slice of an asynchronous task. -/
abbrev Action (σ : Type) := σ → Option σ

/-- A queued task: its slices, separated by suspension points. -/
abbrev QTask (σ : Type) := List (Action σ)

/-- Execution status of one task: `run pc` has completed `pc` slices;
`fault pc` threw while running slice `pc` (settled via its catch handler). -/
inductive TStat where
  | run : Nat → TStat
  | fault : Nat → TStat
deriving DecidableEq

/-- Whether a status is settled for a task of the given length. -/
def TStat.isSettled (len : Nat) : TStat → Bool
  | .run pc => pc == len
  | .fault _ => true

/-- A configuration of the machine: per-task status, shared state, and the
trace of task indices in the order their slices actually ran. -/
structure Cfg (σ : Type) where
  stats : List TStat
  st : σ
  trace : List Nat

/-- Whether task `j` of the chain has settled in the given status list. -/
def settledB {σ : Type} (tasks : List (QTask σ)) (stats : List TStat) (j : Nat) : Bool :=
  match stats.get? j, tasks.get? j with
  | some ts, some t => ts.isSettled t.length
  | _, _ => false

/-- One scheduler step: run the next slice of a task all of whose chain
predecessors have settled.  The slice either succeeds or faults. -/
inductive ChainStep {σ : Type} (tasks : List (QTask σ)) : Cfg σ → Cfg σ → Prop where
  | exec (c : Cfg σ) (i pc : Nat) (t : QTask σ) (a : Action σ) (s2 : σ)
      (henabled : ∀ j, j < i → settledB tasks c.stats j = true)
      (hstat : c.stats.get? i = some (TStat.run pc))
      (htask : tasks.get? i = some t)
      (hact : t.get? pc = some a)
      (hres : a c.st = some s2) :
      ChainStep tasks c ⟨c.stats.set i (TStat.run (pc + 1)), s2, c.trace ++ [i]⟩
  | thrown (c : Cfg σ) (i pc : Nat) (t : QTask σ) (a : Action σ)
      (henabled : ∀ j, j < i → settledB tasks c.stats j = true)
      (hstat : c.stats.get? i = some (TStat.run pc))
      (htask : tasks.get? i = some t)
      (hact : t.get? pc = some a)
      (hres : a c.st = none) :
      ChainStep tasks c ⟨c.stats.set i (TStat.fault pc), c.st, c.trace ++ [i]⟩

/-- Reachability of the machine. -/
abbrev ChainReach {σ : Type} (tasks : List (QTask σ)) : Cfg σ → Cfg σ → Prop :=
  Relation.ReflTransGen (ChainStep tasks)

/-- The configuration before anything has run. -/
def initCfg {σ : Type} (tasks : List (QTask σ)) (s : σ) : Cfg σ :=
  ⟨List.replicate tasks.length (TStat.run 0), s, []⟩

/-- Every task of the chain has settled. -/
def AllSettled {σ : Type} (tasks : List (QTask σ)) (c : Cfg σ) : Prop :=
  ∀ j, j < tasks.length → settledB tasks c.stats j = true

/-- Reference semantics of one task run to settlement: slices apply in
order; a faulting slice ends the task with the state it saw. -/
def runTask {σ : Type} : QTask σ → σ → σ
  | [], s => s
  | a :: t, s =>
    match a s with
    | some s2 => runTask t s2
    | none => s

/-- Reference semantics of the whole queue: tasks run to settlement one
after the other, in submission order. -/
def runAll {σ : Type} (tasks : List (QTask σ)) (s : σ) : σ :=
  tasks.foldl (fun s t => runTask t s) s

/-- State after the first `pc` slices of a task, `none` if one of them
faults before `pc` slices have completed. -/
def execSteps {σ : Type} : QTask σ → Nat → σ → Option σ
  | _, 0, s => some s
  | [], _ + 1, _ => none
  | a :: t, pc + 1, s =>
    match a s with
    | some s2 => execSteps t pc s2
    | none => none

/-- The frontier invariant of reachable configurations: tasks before the
frontier have settled, tasks after it have not started, and the shared state
is the deterministic replay of everything executed so far. -/
def InvAt {σ : Type} (tasks : List (QTask σ)) (init : σ) (k : Nat) (c : Cfg σ) : Prop :=
  c.stats.length = tasks.length ∧
  k ≤ tasks.length ∧
  (∀ j, j < k → settledB tasks c.stats j = true) ∧
  (∀ j, k < j → j < tasks.length → c.stats.get? j = some (TStat.run 0)) ∧
  ((k = tasks.length ∧ c.st = runAll tasks init) ∨
    (∃ t pc, tasks.get? k = some t ∧ c.stats.get? k = some (TStat.run pc) ∧ pc ≤ t.length ∧
      execSteps t pc (runAll (tasks.take k) init) = some c.st)) ∧
  (∀ x ∈ c.trace, x ≤ k) ∧
  List.Pairwise (fun a b => a ≤ b) c.trace

/-- Remaining slice count of one task. -/
def remOne {σ : Type} (t : QTask σ) : TStat → Nat
  | .run pc => t.length - pc
  | .fault _ => 0

/-- Total remaining slice count of the queue, the termination measure. -/
def totalRem {σ : Type} : List (QTask σ) → List TStat → Nat
  | t :: ts, st :: ss => remOne t st + totalRem ts ss
  | _, _ => 0

/-- The `onDidCreate` handler as a queued task, split at its only suspension
point, the awaited stat probe inside `addFilePath` (ignored events return
after the synchronous flood bookkeeping and never reach the probe). -/
def createTask (env : Env) (p : String) : QTask TrackerState :=
  if env.ignoreGlob p then [fun s => some (incrementEventAndDetectFlood s)]
  else [fun s => some (incrementEventAndDetectFlood s),
        fun s => some (triggerWorkspaceDidUpdate (addFilePath env p s))]

/-- The `onDidDelete` handler as a queued task: it contains no await, so it
is a single synchronous slice. -/
def deleteTask (env : Env) (p : String) : QTask TrackerState :=
  [fun s => some (onDeleteEffect env p s)]

/-- The `onDidChange` handler as a queued task, split at the awaited stat
probe inside `addFilePath`. -/
def changeTask (env : Env) (p : String) : QTask TrackerState :=
  if env.ignoreGlob p then [fun s => some (incrementEventAndDetectFlood s)]
  else [fun s => some ((removeFilePath env p (incrementEventAndDetectFlood s)).1),
        fun s => some (triggerWorkspaceDidUpdate (addFilePath env p s))]

/-- A concrete environment for evaluating the model: workspace `/ws`, a stat
probe that always rejects, no ignored paths, a one-file listing. -/
def sampleEnv : Env :=
  { cwd := some "/ws", procCwd := "/ws", statResult := fun _ => none,
    ignoreGlob := fun _ => false, listFilesAt := fun _ => ["a"], providerAlive := true }

/-- As `sampleEnv`, with a stat probe that reports a plain file. -/
def sampleEnvFile : Env := { sampleEnv with statResult := fun _ => some false }

/-- As `sampleEnv`, with no workspace folder configured. -/
def sampleEnvNoCwd : Env := { sampleEnv with cwd := none }

/-- As `sampleEnv`, with every path discarded by the ignore filter. -/
def sampleEnvIgnore : Env := { sampleEnv with ignoreGlob := fun _ => true }

/-- The entry that `addFilePath` inserts for a given raw path: the
normalized path, directory-marked when the probe reports a directory. -/
def addedEntry (env : Env) (p : String) : String :=
  let normalizedPath := normalizeFilePath env.base p
  match env.statResult normalizedPath with
  | some isDirectory =>
    if isDirectory && !(endsWithSlash normalizedPath) then normalizedPath ++ "/"
    else normalizedPath
  | none => normalizedPath

/-- A concrete ignore-rule environment: one `.gitignore` at the workspace
root, a matcher that fires when any rule content was collected, no glob
matches. -/
def sampleGitIgnoreEnv : GitIgnoreEnv :=
  { gfs := fun q => if q = "/ws/.gitignore" then some "node_modules" else none,
    ignoresMatch := fun rules _ => decide (rules ≠ []),
    globMatch := fun _ _ => false,
    procBase := "/ws" }

/-! The machine above covers tasks all of whose work stays on the chain: a
task suspends at an await and resumes as its next chained slice.  The timer
callback, however, enqueues the full re-scan as a task that calls
`initializeFilePaths` without awaiting it, so that task settles as soon as
the synchronous prefix of the re-scan returns its first pending promise,
and the rest of the re-scan runs outside the chain whenever the awaited
listing resolves.  The extension below models this faithfully: a slice may
spawn the continuations of asynchronous calls it started but did not await,
and a spawned continuation may run at any later point, concurrently with
the chain. -/

/-- One synchronous slice in the model with detached continuations: besides
updating the state it spawns the continuations of asynchronous calls it
started but did not await. -/
abbrev DSlice (σ : Type) := σ → σ × List (σ → σ)

/-- A queued task in the model with detached continuations. -/
abbrev DTask (σ : Type) := List (DSlice σ)

/-- A configuration: per-task status, shared state, continuations of
not-yet-resolved unawaited calls, and the chained-slice trace. -/
structure DCfg (σ : Type) where
  stats : List TStat
  st : σ
  pending : List (σ → σ)
  trace : List Nat

/-- Whether task `j` of the chain has settled (its chained slices are done;
detached continuations it spawned do not keep it pending, exactly as an
unawaited promise does not keep its caller pending). -/
def settledD {σ : Type} (tasks : List (DTask σ)) (stats : List TStat) (j : Nat) : Bool :=
  match stats.get? j, tasks.get? j with
  | some ts, some t => ts.isSettled t.length
  | _, _ => false

/-- One scheduler step: run the next chained slice of a task whose chain
predecessors have settled, or resume a pending detached continuation (its
awaited operation has resolved). -/
inductive DStep {σ : Type} (tasks : List (DTask σ)) : DCfg σ → DCfg σ → Prop where
  | execSlice (c : DCfg σ) (i pc : Nat) (t : DTask σ) (a : DSlice σ)
      (henabled : ∀ j, j < i → settledD tasks c.stats j = true)
      (hstat : c.stats.get? i = some (TStat.run pc))
      (htask : tasks.get? i = some t)
      (hact : t.get? pc = some a) :
      DStep tasks c ⟨c.stats.set i (TStat.run (pc + 1)), (a c.st).1,
        c.pending ++ (a c.st).2, c.trace ++ [i]⟩
  | resume (c : DCfg σ) (k : σ → σ) (rest : List (σ → σ))
      (hp : c.pending = k :: rest) :
      DStep tasks c ⟨c.stats, k c.st, rest, c.trace⟩

/-- Reachability of the machine with detached continuations. -/
abbrev DReach {σ : Type} (tasks : List (DTask σ)) : DCfg σ → DCfg σ → Prop :=
  Relation.ReflTransGen (DStep tasks)

/-- The configuration before anything has run. -/
def initDCfg {σ : Type} (tasks : List (DTask σ)) (s : σ) : DCfg σ :=
  ⟨List.replicate tasks.length (TStat.run 0), s, [], []⟩

/-- The part of `initializeFilePaths` after its awaited `listFiles` call:
repopulate the path set from the listing, clear the re-init flag, notify.
When the caller does not await, this runs as a detached continuation. -/
def rescanCont (env : Env) : TrackerState → TrackerState :=
  fun s => workspaceDidUpdate env
    { s with
      filePaths := (env.listFilesAt maxContextFiles).foldl
        (fun acc file => setAdd acc (normalizeFilePath env.base file)) [],
      needReInit := false }

/-- The full re-scan as the timer callback actually queues it: the task body
calls `initializeFilePaths` without awaiting it, so the only chained slice
is the synchronous prefix of the re-scan (the workspace-folder check and the
clearing of the path set, up to the awaited listing), and the remainder is
spawned as a detached continuation. -/
def rescanWrapperTask (env : Env) : DTask TrackerState :=
  match env.cwd with
  | none => [fun s => (s, [])]
  | some _ => [fun s => ({ s with filePaths := [] }, [rescanCont env])]

/-- The `onDidCreate` handler in the detached model: it awaits its stat
probe, so both its slices stay chained and it spawns nothing. -/
def createTaskD (env : Env) (p : String) : DTask TrackerState :=
  if env.ignoreGlob p then [fun s => (incrementEventAndDetectFlood s, [])]
  else [fun s => (incrementEventAndDetectFlood s, []),
        fun s => (triggerWorkspaceDidUpdate (addFilePath env p s), [])]

/-- The final state of the interleaved run in which the queued re-scan is
suspended at its listing await while a later create task runs, after which
the resumed continuation replaces the path set. -/
def escapedFinalState : TrackerState :=
  { filePaths := ["/ws/a"], needReInit := false, eventCount := 1,
    gitIgnoreCacheDirs := [], timerActive := true, messages := [["a"]] }

/-! # Helper lemmas about the set model -/

theorem mem_setAdd {l : List String} {x y : String} : y ∈ setAdd l x ↔ y ∈ l ∨ y = x := by
  rcases Decidable.em (x ∈ l) with h | h
  · rw [setAdd, if_pos h]
    exact ⟨Or.inl, fun hc => hc.elim id (fun e => e ▸ h)⟩
  · rw [setAdd, if_neg h]
    simp

theorem setDel_of_not_mem {l : List String} {x : String} : x ∉ l → setDel l x = l := by
  induction l with
  | nil => intro _; rfl
  | cons y ys ih =>
    intro h
    have hy : y ≠ x := fun e => h (e ▸ List.mem_cons_self y ys)
    simp only [setDel, if_neg hy]
    rw [ih (fun hm => h (List.mem_cons_of_mem y hm))]

theorem setDel_append_self {l : List String} {x : String} : x ∉ l → setDel (l ++ [x]) x = l := by
  induction l with
  | nil => intro _; simp [setDel]
  | cons y ys ih =>
    intro h
    have hy : y ≠ x := fun e => h (e ▸ List.mem_cons_self y ys)
    simp only [List.cons_append, setDel, if_neg hy]
    exact congrArg (fun l => y :: l) (ih (fun hm => h (List.mem_cons_of_mem y hm)))

theorem setDel_setAdd_self {l : List String} {x : String} (h : x ∉ l) :
    setDel (setAdd l x) x = l := by
  rw [setAdd, if_neg h, setDel_append_self h]

theorem mem_of_mem_setDel {l : List String} {x y : String} : y ∈ setDel l x → y ∈ l := by
  induction l with
  | nil => intro h; exact h
  | cons z zs ih =>
    intro h
    by_cases hz : z = x
    · simp only [setDel, if_pos hz] at h
      exact List.mem_cons_of_mem z h
    · simp only [setDel, if_neg hz, List.mem_cons] at h
      rcases h with h | h
      · exact h ▸ List.mem_cons_self z zs
      · exact List.mem_cons_of_mem z (ih h)

theorem not_mem_setDel_of_not_mem {l : List String} {x y : String} (h : y ∉ l) :
    y ∉ setDel l x := fun hm => h (mem_of_mem_setDel hm)

theorem ne_append_slash (n : String) : n ≠ n ++ "/" := by
  intro h
  have h1 : n.length = (n ++ "/").length := by rw [← h]
  rw [String.length_append] at h1
  have h2 : String.length "/" = 1 := rfl
  omega

theorem mem_foldl_setAdd (g : String → String) :
    ∀ (l : List String) (acc : List String) (x : String),
      (x ∈ l.foldl (fun a f => setAdd a (g f)) acc ↔ x ∈ acc ∨ x ∈ l.map g) := by
  intro l
  induction l with
  | nil => simp
  | cons f fs ih =>
    intro acc x
    simp only [List.foldl_cons, List.map_cons, List.mem_cons]
    rw [ih, mem_setAdd]
    tauto

theorem applyEvents_nil (env : Env) (s : TrackerState) : applyEvents env [] s = s := rfl

theorem applyEvents_cons (env : Env) (e : WatcherEvent) (evs : List WatcherEvent)
    (s : TrackerState) : applyEvents env (e :: evs) s = applyEvents env evs (applyEvent env e s) := rfl

/-! # Bookkeeping lemmas for the event handlers -/

theorem addFilePath_eventCount (env : Env) (p : String) (s : TrackerState) :
    (addFilePath env p s).eventCount = s.eventCount := by
  simp only [addFilePath]
  repeat' split
  all_goals rfl

theorem removeFilePath_eventCount (env : Env) (p : String) (s : TrackerState) :
    (removeFilePath env p s).1.eventCount = s.eventCount := by
  simp only [removeFilePath]
  repeat' split
  all_goals rfl

theorem trigger_eventCount (s : TrackerState) :
    (triggerWorkspaceDidUpdate s).eventCount = s.eventCount := rfl

theorem trigger_needReInit (s : TrackerState) :
    (triggerWorkspaceDidUpdate s).needReInit = s.needReInit := rfl

theorem trigger_filePaths (s : TrackerState) :
    (triggerWorkspaceDidUpdate s).filePaths = s.filePaths := rfl

theorem trigger_messages (s : TrackerState) :
    (triggerWorkspaceDidUpdate s).messages = s.messages := rfl

theorem applyEvent_eventCount (env : Env) (e : WatcherEvent) (s : TrackerState) :
    (applyEvent env e s).eventCount = s.eventCount + 1 := by
  have hincr : (incrementEventAndDetectFlood s).eventCount = s.eventCount + 1 := rfl
  cases e with
  | created p =>
    simp only [applyEvent, onCreateEffect]
    split
    · exact hincr
    · rw [trigger_eventCount, addFilePath_eventCount]
      exact hincr
  | deleted p =>
    simp only [applyEvent, onDeleteEffect]
    split
    · exact hincr
    · split
      · rw [trigger_eventCount, removeFilePath_eventCount]
        exact hincr
      · rw [removeFilePath_eventCount]
        exact hincr
  | changed p =>
    simp only [applyEvent, onChangeEffect]
    split
    · exact hincr
    · rw [trigger_eventCount, addFilePath_eventCount, removeFilePath_eventCount]
      exact hincr

theorem addFilePath_flag_mono (env : Env) (p : String) (s : TrackerState)
    (h : s.needReInit = true) : (addFilePath env p s).needReInit = true := by
  simp only [addFilePath]
  repeat' split
  all_goals first | rfl | exact h

theorem removeFilePath_flag_mono (env : Env) (p : String) (s : TrackerState)
    (h : s.needReInit = true) : (removeFilePath env p s).1.needReInit = true := by
  simp only [removeFilePath]
  repeat' split
  all_goals first | rfl | exact h

theorem incr_flag_mono (s : TrackerState) (h : s.needReInit = true) :
    (incrementEventAndDetectFlood s).needReInit = true := by
  simp only [incrementEventAndDetectFlood]
  split
  · rfl
  · exact h

theorem incr_flag_of_count (s : TrackerState) (h : EVENT_FLOOD_SZ < s.eventCount) :
    (incrementEventAndDetectFlood s).needReInit = true := by
  simp [incrementEventAndDetectFlood, h]

theorem applyEvent_flag_mono (env : Env) (e : WatcherEvent) (s : TrackerState)
    (h : (incrementEventAndDetectFlood s).needReInit = true) :
    (applyEvent env e s).needReInit = true := by
  cases e with
  | created p =>
    simp only [applyEvent, onCreateEffect]
    split
    · exact h
    · rw [trigger_needReInit]
      exact addFilePath_flag_mono _ _ _ h
  | deleted p =>
    simp only [applyEvent, onDeleteEffect]
    split
    · exact h
    · split
      · rw [trigger_needReInit]
        exact removeFilePath_flag_mono _ _ _ h
      · exact removeFilePath_flag_mono _ _ _ h
  | changed p =>
    simp only [applyEvent, onChangeEffect]
    split
    · exact h
    · rw [trigger_needReInit]
      exact addFilePath_flag_mono _ _ _ (removeFilePath_flag_mono _ _ _ h)

theorem flood_sets_flag :
    ∀ (evs : List WatcherEvent) (env : Env) (s : TrackerState),
      evs ≠ [] → 102 ≤ s.eventCount + evs.length →
      (applyEvents env evs s).needReInit = true := by
  intro evs
  induction evs with
  | nil => intro env s h _; exact absurd rfl h
  | cons e rest ih =>
    intro env s _ hlen
    rw [applyEvents_cons]
    cases rest with
    | nil =>
      have hc : EVENT_FLOOD_SZ < s.eventCount := by
        simp only [List.length_cons, List.length_nil] at hlen
        simp only [EVENT_FLOOD_SZ]
        omega
      rw [applyEvents_nil]
      exact applyEvent_flag_mono env e s (incr_flag_of_count s hc)
    | cons e2 rest2 =>
      apply ih env (applyEvent env e s) (by simp)
      rw [applyEvent_eventCount]
      simp only [List.length_cons] at hlen ⊢
      omega

/-! # Claim C2 -/

/-- After 101 raw watcher events in one debounce window (counter not yet
reset, no timer fire), the re-init flag is still clear: the claimed flood
threshold of 101 events does not set it. -/
theorem flood_101_events_do_not_set_flag :
    (applyEvents sampleEnv (List.replicate 101 (WatcherEvent.created "a"))
      initTrackerState).needReInit = false := by
  decide

/-- Claim C2 (amended): the flood flag is raised by the first raw event
whose pre-increment counter value strictly exceeds 100, so 102 raw events
within one debounce window (counter starting at 0) set the ReinitFlag; the
counter increments for every raw event, including events discarded by the
ignore filter; and the next timer fire with the flag set enqueues a full
re-scan instead of delivering an incremental snapshot. -/
theorem flood_detection_contract :
    (∀ (env : Env) (evs : List WatcherEvent) (s : TrackerState),
        s.eventCount = 0 → 102 ≤ evs.length →
        (applyEvents env evs s).needReInit = true) ∧
    (∀ (env : Env) (e : WatcherEvent) (s : TrackerState),
        (applyEvent env e s).eventCount = s.eventCount + 1) ∧
    (∀ (env : Env) (s : TrackerState),
        s.needReInit = true → (timerFire env s).2 = FireOutcome.enqueueRescan) := by
  refine ⟨fun env evs s hc hlen => ?_, applyEvent_eventCount, fun env s h => ?_⟩
  · apply flood_sets_flag evs env s
    · intro he
      rw [he] at hlen
      simp at hlen
    · omega
  · simp [timerFire, h]

/-- Witness for the amended flood contract at concrete inputs. -/
theorem flood_detection_contract_witness :
    (applyEvents sampleEnv (List.replicate 102 (WatcherEvent.created "a"))
      initTrackerState).needReInit = true ∧
    (applyEvent sampleEnv (WatcherEvent.created "a") initTrackerState).eventCount =
      initTrackerState.eventCount + 1 ∧
    (timerFire sampleEnv { initTrackerState with needReInit := true }).2 =
      FireOutcome.enqueueRescan :=
  ⟨flood_detection_contract.1 sampleEnv _ _ rfl (by decide),
   flood_detection_contract.2.1 sampleEnv _ _,
   flood_detection_contract.2.2 sampleEnv _ rfl⟩

/-! # Claim C3 -/

/-- When the status probe of a created `.gitignore` path fails, `addFilePath`
neither clears the rule cache nor sets the re-init flag: the path is added as
a plain file and the cache is left intact. -/
theorem gitignore_probe_failure_skips_invalidation :
    ((addFilePath sampleEnv "/ws/.gitignore"
        { initTrackerState with gitIgnoreCacheDirs := ["/ws"] }).gitIgnoreCacheDirs = ["/ws"] ∧
     (addFilePath sampleEnv "/ws/.gitignore"
        { initTrackerState with gitIgnoreCacheDirs := ["/ws"] }).needReInit = false ∧
     (addFilePath sampleEnv "/ws/.gitignore"
        { initTrackerState with gitIgnoreCacheDirs := ["/ws"] }).filePaths = ["/ws/.gitignore"]) := by
  refine ⟨?_, ?_, ?_⟩ <;> decide

/-- Claim C3 (amended): for every path whose normalized base name is the
ignore-file name, `addFilePath` clears the entire ignore-rule cache and sets
the ReinitFlag whenever the status probe succeeds (regardless of prior
membership), and `removeFilePath` does so unconditionally — including when
the path was never tracked; when the status probe of a created path fails,
`addFilePath` performs no invalidation. -/
theorem gitignore_invalidation_contract :
    (∀ (env : Env) (p : String) (s : TrackerState) (b : Bool),
        basename (normalizeFilePath env.base p) = gitignoreName →
        env.statResult (normalizeFilePath env.base p) = some b →
        (addFilePath env p s).gitIgnoreCacheDirs = [] ∧
        (addFilePath env p s).needReInit = true) ∧
    (∀ (env : Env) (p : String) (s : TrackerState),
        basename (normalizeFilePath env.base p) = gitignoreName →
        (removeFilePath env p s).1.gitIgnoreCacheDirs = [] ∧
        (removeFilePath env p s).1.needReInit = true) := by
  constructor
  · intro env p s b hbase hstat
    simp only [addFilePath, hstat, hbase, gitignoreName, if_pos]
    cases b <;> simp
  · intro env p s hbase
    simp only [removeFilePath, hbase, gitignoreName, if_pos]
    split <;> simp

/-- Witness for the gitignore invalidation contract at concrete inputs. -/
theorem gitignore_invalidation_contract_witness :
    ((addFilePath sampleEnvFile "/ws/.gitignore" initTrackerState).gitIgnoreCacheDirs = [] ∧
     (addFilePath sampleEnvFile "/ws/.gitignore" initTrackerState).needReInit = true) ∧
    ((removeFilePath sampleEnv "/ws/.gitignore" initTrackerState).1.gitIgnoreCacheDirs = [] ∧
     (removeFilePath sampleEnv "/ws/.gitignore" initTrackerState).1.needReInit = true) :=
  ⟨gitignore_invalidation_contract.1 sampleEnvFile "/ws/.gitignore" initTrackerState false
      (by decide) rfl,
   gitignore_invalidation_contract.2 sampleEnv "/ws/.gitignore" initTrackerState (by decide)⟩

theorem workspaceDidUpdate_filePaths (env : Env) (s : TrackerState) :
    (workspaceDidUpdate env s).filePaths = s.filePaths := by
  simp only [workspaceDidUpdate]
  split
  · rfl
  · split <;> rfl

theorem workspaceDidUpdate_needReInit (env : Env) (s : TrackerState) :
    (workspaceDidUpdate env s).needReInit = s.needReInit := by
  simp only [workspaceDidUpdate]
  split
  · rfl
  · split <;> rfl

theorem workspaceDidUpdate_messages (env : Env) (c : String) (s : TrackerState)
    (hc : env.cwd = some c) (hp : env.providerAlive = true) :
    (workspaceDidUpdate env s).messages = s.messages ++ [payload c s.filePaths] := by
  simp [workspaceDidUpdate, hc, hp]

/-! # Claim C4 -/

/-- Claim C4: with a project root configured, the full re-scan replaces the
PathSet by the normalized results of the listing requested with the
`maxContextFiles` cap, clears the ReinitFlag and posts an immediate
notification (when the weakly-held consumer is alive); without a project
root it returns with no effect at all. -/
theorem initializeFilePaths_contract :
    (∀ (env : Env) (s : TrackerState), env.cwd = none → initializeFilePaths env s = s) ∧
    (∀ (env : Env) (c : String) (s : TrackerState), env.cwd = some c →
        ((∀ x, x ∈ (initializeFilePaths env s).filePaths ↔
            x ∈ (env.listFilesAt maxContextFiles).map (normalizeFilePath env.base)) ∧
         (initializeFilePaths env s).needReInit = false ∧
         (env.providerAlive = true →
           (initializeFilePaths env s).messages =
             s.messages ++ [payload c ((env.listFilesAt maxContextFiles).foldl
               (fun acc file => setAdd acc (normalizeFilePath env.base file)) [])]))) := by
  constructor
  · intro env s hc
    simp [initializeFilePaths, hc]
  · intro env c s hc
    refine ⟨fun x => ?_, ?_, fun hp => ?_⟩
    · simp only [initializeFilePaths, hc, workspaceDidUpdate_filePaths]
      simpa using mem_foldl_setAdd (normalizeFilePath env.base) (env.listFilesAt maxContextFiles) [] x
    · simp only [initializeFilePaths, hc, workspaceDidUpdate_needReInit]
    · simp only [initializeFilePaths, hc]
      rw [workspaceDidUpdate_messages env c _ hc hp]

/-- Witness for the full re-scan contract at concrete inputs. -/
theorem initializeFilePaths_contract_witness :
    (initializeFilePaths sampleEnvNoCwd initTrackerState = initTrackerState) ∧
    ((initializeFilePaths sampleEnv initTrackerState).needReInit = false) :=
  ⟨initializeFilePaths_contract.1 sampleEnvNoCwd initTrackerState rfl,
   (initializeFilePaths_contract.2 sampleEnv "/ws" initTrackerState rfl).2.1⟩

/-! # Claim C5 -/

/-- Claim C5: `removeFilePath` normalizes and deletes the exact normalized
entry; when that entry was not present as a plain path it sets the
ReinitFlag and additionally attempts deletion of the directory-suffixed
form; it returns true exactly when one of the two deletions removed an
entry. -/
theorem removeFilePath_contract (env : Env) (p : String) (s : TrackerState) :
    ((removeFilePath env p s).2 = true ↔
      (normalizeFilePath env.base p ∈ s.filePaths ∨
        normalizeFilePath env.base p ++ "/" ∈ s.filePaths)) ∧
    ((removeFilePath env p s).1.filePaths =
      (if normalizeFilePath env.base p ∈ s.filePaths then
        setDel s.filePaths (normalizeFilePath env.base p)
      else setDel s.filePaths (normalizeFilePath env.base p ++ "/"))) ∧
    (normalizeFilePath env.base p ∉ s.filePaths →
      (removeFilePath env p s).1.needReInit = true) := by
  by_cases hmem : normalizeFilePath env.base p ∈ s.filePaths
  · refine ⟨?_, ?_, fun hc => absurd hmem hc⟩ <;>
    · simp only [removeFilePath, hmem]
      repeat' split
      all_goals simp_all
  · have hdel := setDel_of_not_mem hmem
    refine ⟨?_, ?_, fun _ => ?_⟩ <;>
    · simp only [removeFilePath, hmem, hdel]
      repeat' split
      all_goals simp_all

/-- Witness for the removal contract at concrete inputs. -/
theorem removeFilePath_contract_witness :
    (removeFilePath sampleEnv "b" initTrackerState).1.needReInit = true :=
  (removeFilePath_contract sampleEnv "b" initTrackerState).2.2 (by decide)

/-! # Claim C8 -/

/-- Claim C8: when the status probe rejects, `addFilePath` does not
propagate an error; it adds exactly the normalized path (no directory
marker appended) and changes nothing else in the tracker state. -/
theorem addFilePath_probe_failure_adds_plain (env : Env) (p : String) (s : TrackerState)
    (h : env.statResult (normalizeFilePath env.base p) = none) :
    addFilePath env p s =
      { s with filePaths := setAdd s.filePaths (normalizeFilePath env.base p) } := by
  simp [addFilePath, h]

/-- Witness for the probe-failure behaviour at concrete inputs. -/
theorem addFilePath_probe_failure_adds_plain_witness :
    addFilePath sampleEnv "b" initTrackerState =
      { initTrackerState with
          filePaths := setAdd initTrackerState.filePaths (normalizeFilePath sampleEnv.base "b") } :=
  addFilePath_probe_failure_adds_plain sampleEnv "b" initTrackerState rfl

/-! # Claim C10 -/

/-- Claim C10: a deletion event that passes the ignore filter whose
normalized path is tracked in neither its plain nor its directory-suffixed
form sets the ReinitFlag but leaves the debounce timer, the message log and
the path set untouched (only the event counter advances), so no
notification and no re-scan is triggered by that event. -/
theorem untracked_delete_flags_without_timer (env : Env) (p : String) (s : TrackerState)
    (hig : env.ignoreGlob p = false)
    (h1 : normalizeFilePath env.base p ∉ s.filePaths)
    (h2 : normalizeFilePath env.base p ++ "/" ∉ s.filePaths) :
    (onDeleteEffect env p s).needReInit = true ∧
    (onDeleteEffect env p s).timerActive = s.timerActive ∧
    (onDeleteEffect env p s).messages = s.messages ∧
    (onDeleteEffect env p s).filePaths = s.filePaths ∧
    (onDeleteEffect env p s).eventCount = s.eventCount + 1 := by
  have hdel : setDel s.filePaths (normalizeFilePath env.base p) = s.filePaths :=
    setDel_of_not_mem h1
  have hdel2 : setDel s.filePaths (normalizeFilePath env.base p ++ "/") = s.filePaths :=
    setDel_of_not_mem h2
  by_cases hgit : basename (normalizeFilePath env.base p) = gitignoreName <;>
    refine ⟨?_, ?_, ?_, ?_, ?_⟩ <;>
    simp_all [onDeleteEffect, hig, removeFilePath, incrementEventAndDetectFlood,
      triggerWorkspaceDidUpdate]

/-! # Path-normalization lemmas (for claim C9) -/

theorem splitSlash_ne_nil (l : List Char) : splitSlash l ≠ [] := by
  cases l with
  | nil => simp [splitSlash]
  | cons c cs =>
    simp only [splitSlash]
    split
    · simp
    · split <;> simp

theorem not_slash_mem_splitSlash : ∀ (l g : List Char), g ∈ splitSlash l → '/' ∉ g := by
  intro l
  induction l with
  | nil =>
    intro g hg
    simp only [splitSlash, List.mem_singleton] at hg
    simp [hg]
  | cons c cs ih =>
    intro g hg
    by_cases hc : c = '/'
    · simp only [splitSlash, if_pos hc] at hg
      rcases List.mem_cons.mp hg with h | h
      · simp [h]
      · exact ih g h
    · simp only [splitSlash, if_neg hc] at hg
      cases hsp : splitSlash cs with
      | nil => exact absurd hsp (splitSlash_ne_nil cs)
      | cons g0 gs =>
        simp only [hsp] at hg
        rcases List.mem_cons.mp hg with h | h
        · subst h
          intro hmem
          rcases List.mem_cons.mp hmem with h2 | h2
          · exact hc h2.symm
          · exact ih g0 (by rw [hsp]; exact List.mem_cons_self g0 gs) h2
        · exact ih g (by rw [hsp]; exact List.mem_cons_of_mem g0 h)

theorem splitSlash_no_slash : ∀ (c : List Char), '/' ∉ c → splitSlash c = [c] := by
  intro c
  induction c with
  | nil => intro _; rfl
  | cons x xs ih =>
    intro h
    have hx : ¬x = '/' := fun e => h (e ▸ List.mem_cons_self x xs)
    have ih2 := ih (fun hm => h (List.mem_cons_of_mem x hm))
    simp only [splitSlash, if_neg hx, ih2]

theorem splitSlash_append_cons : ∀ (c t : List Char), '/' ∉ c →
    splitSlash (c ++ '/' :: t) = c :: splitSlash t := by
  intro c
  induction c with
  | nil =>
    intro t _
    simp [splitSlash]
  | cons x xs ih =>
    intro t h
    have hx : ¬x = '/' := fun e => h (e ▸ List.mem_cons_self x xs)
    have ih2 := ih t (fun hm => h (List.mem_cons_of_mem x hm))
    simp only [List.cons_append, splitSlash, if_neg hx, List.append_eq, ih2]

theorem splitSlash_joinSlash : ∀ (l : List (List Char)), (∀ c ∈ l, '/' ∉ c) → l ≠ [] →
    splitSlash (joinSlash l) = l := by
  intro l
  induction l with
  | nil => intro _ h; exact absurd rfl h
  | cons c cs ih =>
    intro hl _
    cases cs with
    | nil => exact splitSlash_no_slash c (hl c (List.mem_cons_self c []))
    | cons c2 cs2 =>
      have h1 : joinSlash (c :: c2 :: cs2) = c ++ '/' :: joinSlash (c2 :: cs2) := rfl
      rw [h1, splitSlash_append_cons c _ (hl c (List.mem_cons_self _ _)),
        ih (fun d hd => hl d (List.mem_cons_of_mem c hd)) (by simp)]

theorem splitSlash_append_slash : ∀ (xs : List Char),
    splitSlash (xs ++ ['/']) = splitSlash xs ++ [[]] := by
  intro xs
  induction xs with
  | nil => rfl
  | cons c cs ih =>
    by_cases hc : c = '/'
    · simp only [List.cons_append, splitSlash, if_pos hc, List.append_eq, ih]
    · simp only [List.cons_append, splitSlash, if_neg hc, List.append_eq, ih]
      cases hsp : splitSlash cs with
      | nil => exact absurd hsp (splitSlash_ne_nil cs)
      | cons g0 gs => simp [hsp]

theorem resolveComps_append : ∀ (l1 l2 acc : List (List Char)),
    resolveComps acc (l1 ++ l2) = resolveComps (resolveComps acc l1) l2 := by
  intro l1
  induction l1 with
  | nil => intro l2 acc; rfl
  | cons c cs ih =>
    intro l2 acc
    simp only [List.cons_append, resolveComps]
    split
    · exact ih l2 acc
    · split
      · exact ih l2 acc.dropLast
      · exact ih l2 (acc ++ [c])

theorem resolveComps_plain : ∀ (l acc : List (List Char)),
    (∀ c ∈ l, c ≠ [] ∧ c ≠ ['.'] ∧ c ≠ ['.', '.']) → resolveComps acc l = acc ++ l := by
  intro l
  induction l with
  | nil => intro acc _; simp [resolveComps]
  | cons c cs ih =>
    intro acc h
    have hc := h c (List.mem_cons_self c cs)
    have hcons : ¬(c = [] ∨ c = ['.']) := fun hor => hor.elim hc.1 hc.2.1
    simp only [resolveComps, if_neg hcons, if_neg hc.2.2]
    rw [ih (acc ++ [c]) (fun d hd => h d (List.mem_cons_of_mem c hd))]
    simp

theorem goodComp_resolveComps : ∀ (l acc : List (List Char)),
    (∀ c ∈ l, '/' ∉ c) → (∀ c ∈ acc, goodComp c) →
    ∀ c ∈ resolveComps acc l, goodComp c := by
  intro l
  induction l with
  | nil => intro acc _ hacc; exact hacc
  | cons c cs ih =>
    intro acc hl hacc
    have hl2 : ∀ d ∈ cs, '/' ∉ d := fun d hd => hl d (List.mem_cons_of_mem c hd)
    simp only [resolveComps]
    split
    · exact ih acc hl2 hacc
    · split
      · exact ih acc.dropLast hl2 (fun d hd => hacc d (List.dropLast_subset acc hd))
      · refine ih (acc ++ [c]) hl2 (fun d hd => ?_)
        rcases List.mem_append.mp hd with h | h
        · exact hacc d h
        · rw [List.mem_singleton.mp h]
          next hne1 hne2 =>
            exact ⟨fun e => hne1 (Or.inl e), fun e => hne1 (Or.inr e), hne2,
              hl c (List.mem_cons_self c cs)⟩

theorem getLast?_cons_of_ne_nil {x : Char} {l : List Char} (h : l ≠ []) :
    (x :: l).getLast? = l.getLast? := by
  cases l with
  | nil => exact absurd rfl h
  | cons y ys => rfl

theorem getLast?_append_right : ∀ (a b : List Char), b ≠ [] →
    (a ++ b).getLast? = b.getLast? := by
  intro a
  induction a with
  | nil => intro b _; rfl
  | cons x xs ih =>
    intro b hb
    have hne : xs ++ b ≠ [] := fun e => hb (List.append_eq_nil.mp e).2
    rw [List.cons_append, getLast?_cons_of_ne_nil hne, ih b hb]

theorem mem_of_getLast?_eq : ∀ {l : List Char} {x : Char}, l.getLast? = some x → x ∈ l := by
  intro l
  induction l with
  | nil => intro x h; cases h
  | cons y ys ih =>
    intro x h
    cases ys with
    | nil =>
      cases h
      exact List.mem_cons_self y []
    | cons z zs =>
      rw [getLast?_cons_of_ne_nil (by simp)] at h
      exact List.mem_cons_of_mem y (ih h)

theorem getLast?_isSome_of_ne_nil : ∀ {l : List Char}, l ≠ [] → ∃ x, l.getLast? = some x := by
  intro l
  induction l with
  | nil => intro h; exact absurd rfl h
  | cons y ys ih =>
    intro _
    cases ys with
    | nil => exact ⟨y, rfl⟩
    | cons z zs =>
      obtain ⟨x, hx⟩ := ih (by simp)
      exact ⟨x, by rw [getLast?_cons_of_ne_nil (by simp), hx]⟩

theorem joinSlash_ne_nil {l : List (List Char)} (h : l ≠ []) (hg : ∀ c ∈ l, goodComp c) :
    joinSlash l ≠ [] := by
  cases l with
  | nil => exact absurd rfl h
  | cons c cs =>
    cases cs with
    | nil => exact (hg c (List.mem_cons_self c [])).1
    | cons c2 cs2 =>
      have h1 : joinSlash (c :: c2 :: cs2) = c ++ '/' :: joinSlash (c2 :: cs2) := rfl
      rw [h1]
      simp

theorem joinSlash_getLast : ∀ (l : List (List Char)), l ≠ [] → (∀ c ∈ l, goodComp c) →
    ∃ x, (joinSlash l).getLast? = some x ∧ x ≠ '/' := by
  intro l
  induction l with
  | nil => intro h _; exact absurd rfl h
  | cons c cs ih =>
    intro _ hg
    cases cs with
    | nil =>
      obtain ⟨x, hx⟩ := getLast?_isSome_of_ne_nil (hg c (List.mem_cons_self c [])).1
      exact ⟨x, hx, fun e =>
        (hg c (List.mem_cons_self c [])).2.2.2 (e ▸ mem_of_getLast?_eq hx)⟩
    | cons c2 cs2 =>
      obtain ⟨x, hx, hxs⟩ := ih (by simp) (fun d hd => hg d (List.mem_cons_of_mem c hd))
      have hne : joinSlash (c2 :: cs2) ≠ [] :=
        joinSlash_ne_nil (by simp) (fun d hd => hg d (List.mem_cons_of_mem c hd))
      have h1 : joinSlash (c :: c2 :: cs2) = c ++ '/' :: joinSlash (c2 :: cs2) := rfl
      refine ⟨x, ?_, hxs⟩
      rw [h1, getLast?_append_right c _ (by simp), getLast?_cons_of_ne_nil hne, hx]

theorem goodComp_comps (l : List Char) :
    ∀ c ∈ resolveComps [] (splitSlash l), goodComp c :=
  goodComp_resolveComps (splitSlash l) [] (not_slash_mem_splitSlash l)
    (fun c hc => absurd hc (List.not_mem_nil c))

theorem resolveComps_canonical (C : List (List Char)) (hg : ∀ c ∈ C, goodComp c) :
    resolveComps [] (splitSlash ('/' :: joinSlash C)) = C := by
  have h1 : splitSlash ('/' :: joinSlash C) = [] :: splitSlash (joinSlash C) := by
    simp [splitSlash]
  rw [h1]
  cases C with
  | nil => rfl
  | cons c0 cs0 =>
    rw [splitSlash_joinSlash _ (fun c hc => (hg c hc).2.2.2) (by simp)]
    have h2 : resolveComps [] ([] :: c0 :: cs0) = resolveComps [] (c0 :: cs0) := by
      simp [resolveComps]
    rw [h2, resolveComps_plain _ []
      (fun c hc => ⟨(hg c hc).1, (hg c hc).2.1, (hg c hc).2.2.1⟩)]
    rfl

theorem resolveComps_canonical_slash (C : List (List Char)) (hg : ∀ c ∈ C, goodComp c) :
    resolveComps [] (splitSlash ('/' :: (joinSlash C ++ ['/']))) = C := by
  have h1 : splitSlash ('/' :: (joinSlash C ++ ['/'])) =
      [] :: splitSlash (joinSlash C ++ ['/']) := by
    simp [splitSlash]
  rw [h1, splitSlash_append_slash]
  cases C with
  | nil => rfl
  | cons c0 cs0 =>
    rw [splitSlash_joinSlash _ (fun c hc => (hg c hc).2.2.2) (by simp)]
    have h2 : resolveComps [] ([] :: ((c0 :: cs0) ++ [[]])) =
        resolveComps [] ((c0 :: cs0) ++ [[]]) := by
      simp [resolveComps]
    rw [h2, resolveComps_append, resolveComps_plain _ []
      (fun c hc => ⟨(hg c hc).1, (hg c hc).2.1, (hg c hc).2.2.1⟩)]
    simp [resolveComps]

theorem posixResolve_of_canonical (b2 : String) (C : List (List Char))
    (hg : ∀ c ∈ C, goodComp c) :
    posixResolve b2 ⟨'/' :: joinSlash C⟩ = ⟨'/' :: joinSlash C⟩ := by
  simp [posixResolve, resolveComps_canonical C hg]

theorem posixResolve_of_canonical_slash (b2 : String) (C : List (List Char))
    (hg : ∀ c ∈ C, goodComp c) :
    posixResolve b2 (⟨'/' :: joinSlash C⟩ ++ "/") = ⟨'/' :: joinSlash C⟩ := by
  have hdata : ((⟨'/' :: joinSlash C⟩ : String) ++ "/").data = '/' :: (joinSlash C ++ ['/']) := by
    rw [String.data_append]
    rfl
  simp [posixResolve, hdata, resolveComps_canonical_slash C hg]

theorem endsWithSlash_append (s : String) : endsWithSlash (s ++ "/") = true := by
  have hdata : (s ++ "/").data = s.data ++ ['/'] := by rw [String.data_append]
  unfold endsWithSlash
  rw [hdata, getLast?_append_right s.data ['/'] (by simp)]
  rfl

theorem endsWithSlash_canonical_ne (C : List (List Char)) (hC : C ≠ [])
    (hg : ∀ c ∈ C, goodComp c) : endsWithSlash ⟨'/' :: joinSlash C⟩ = false := by
  obtain ⟨x, hx, hxs⟩ := joinSlash_getLast C hC hg
  have hne := joinSlash_ne_nil hC hg
  unfold endsWithSlash
  rw [show (⟨'/' :: joinSlash C⟩ : String).data = '/' :: joinSlash C from rfl,
    getLast?_cons_of_ne_nil hne, hx]
  exact beq_eq_false_iff_ne.mpr hxs

theorem normalizeFilePath_of_slash {base q : String} (h : endsWithSlash q = true) :
    normalizeFilePath base q = posixResolve base q ++ "/" := by
  simp [normalizeFilePath, h]

theorem normalizeFilePath_of_noslash {base q : String} (h : endsWithSlash q = false) :
    normalizeFilePath base q = posixResolve base q := by
  simp [normalizeFilePath, h]

/-! # Claim C9 -/

/-- Normalization is not idempotent at the filesystem root: `/..` resolves
to `/`, which carries a trailing separator without being a directory input,
so a second normalization yields `//`.  A slash-free input can also gain the
directory marker. -/
theorem normalize_not_idempotent_at_root :
    normalizeFilePath "/ws" (normalizeFilePath "/ws" "/..") ≠ normalizeFilePath "/ws" "/.." ∧
    endsWithSlash "/.." = false ∧
    endsWithSlash (normalizeFilePath "/ws" "/..") = true := by
  refine ⟨?_, ?_, ?_⟩ <;> decide

/-- Claim C9 (amended): normalization is idempotent, and preserves presence
and absence of the directory-marker suffix, for every input except those
slash-free inputs whose resolution collapses to the filesystem root `/`
(such as `/..`): inputs ending in the separator always normalize
idempotently and keep the marker; inputs not ending in the separator do so
whenever their resolution is not the root. -/
theorem normalize_idempotent_off_root (base p : String) :
    (endsWithSlash p = true →
      normalizeFilePath base (normalizeFilePath base p) = normalizeFilePath base p ∧
      endsWithSlash (normalizeFilePath base p) = true) ∧
    (endsWithSlash p = false → posixResolve base p ≠ "/" →
      normalizeFilePath base (normalizeFilePath base p) = normalizeFilePath base p ∧
      endsWithSlash (normalizeFilePath base p) = false) := by
  have hr : posixResolve base p = ⟨'/' :: joinSlash (resolveComps [] (splitSlash
      (if p.data.head? = some '/' then p.data else base.data ++ '/' :: p.data)))⟩ := rfl
  have hg := goodComp_comps (if p.data.head? = some '/' then p.data
    else base.data ++ '/' :: p.data)
  constructor
  · intro hp
    have h1 := @normalizeFilePath_of_slash base p hp
    have hE : endsWithSlash (normalizeFilePath base p) = true := by
      rw [h1]
      exact endsWithSlash_append _
    refine ⟨?_, hE⟩
    rw [normalizeFilePath_of_slash hE, h1, hr, posixResolve_of_canonical_slash base _ hg]
  · intro hp hroot
    have h1 := @normalizeFilePath_of_noslash base p hp
    have hC : resolveComps [] (splitSlash
        (if p.data.head? = some '/' then p.data else base.data ++ '/' :: p.data)) ≠ [] := by
      intro h0
      apply hroot
      rw [hr, h0]
      decide
    have hE : endsWithSlash (normalizeFilePath base p) = false := by
      rw [h1, hr]
      exact endsWithSlash_canonical_ne _ hC hg
    refine ⟨?_, hE⟩
    rw [normalizeFilePath_of_noslash hE, h1, hr, posixResolve_of_canonical base _ hg]

/-- Witness for the amended normalization claim at concrete inputs. -/
theorem normalize_idempotent_off_root_witness :
    (normalizeFilePath "/ws" (normalizeFilePath "/ws" "a/") = normalizeFilePath "/ws" "a/" ∧
      endsWithSlash (normalizeFilePath "/ws" "a/") = true) ∧
    (normalizeFilePath "/ws" (normalizeFilePath "/ws" "a") = normalizeFilePath "/ws" "a" ∧
      endsWithSlash (normalizeFilePath "/ws" "a") = false) :=
  ⟨(normalize_idempotent_off_root "/ws" "a/").1 (by decide),
   (normalize_idempotent_off_root "/ws" "a").2 (by decide) (by decide)⟩

/-! # Claim C7 -/

theorem collectGitignore_eq_spec (env : GitIgnoreEnv) (ws : String) :
    ∀ (fuel : Nat) (cur : String) (acc : List String),
      collectGitignore env ws fuel cur acc = acc ++ specMergedRules env ws fuel cur := by
  intro fuel
  induction fuel with
  | zero => intro cur acc; simp [collectGitignore, specMergedRules, ancestorsUpTo]
  | succ n ih =>
    intro cur acc
    simp only [collectGitignore, specMergedRules, ancestorsUpTo]
    by_cases hcond : cur.startsWith ws = true ∧ cur ≠ parseRoot cur
    · rw [if_pos hcond, if_pos hcond]
      by_cases hws : cur = ws
      · rw [if_pos hws, if_pos hws]
        cases hg : env.gfs (joinPath cur gitignoreName) <;> simp [hg]
      · rw [if_neg hws, if_neg hws]
        cases hg : env.gfs (joinPath cur gitignoreName) <;>
          simp [hg, ih, specMergedRules]
    · rw [if_neg hcond, if_neg hcond]
      simp

/-- Claim C7: `shouldIgnoreFile` returns true exactly when the merged
gitignore ruleset of the containing directory — the `.gitignore` contents
gathered along the ancestor chain from that directory up to the project
root — matches the path relative to its containing directory, or, failing
that, when the path matches one of the supplied exclusion globs (the
pattern matchers themselves are the black-box predicates of the spec).
Stated for a cache with no stale entry for the directory. -/
theorem shouldIgnoreFile_layered (env : GitIgnoreEnv) (ws p : String) (globs : List String)
    (cache : IgnCache) (hmiss : List.lookup (dirname p) cache = none) :
    ((shouldIgnoreFile env ws p globs cache).1 = true ↔
      (env.ignoresMatch
        (specMergedRules env ws ((dirname p).length + 1) (dirname p))
        (relativePosix env.procBase (dirname p) p) = true ∨
       env.globMatch p globs = true)) := by
  have hrules : getGitignoreRulesForPath env ws (dirname p) cache =
      (specMergedRules env ws ((dirname p).length + 1) (dirname p),
        (dirname p, specMergedRules env ws ((dirname p).length + 1) (dirname p)) :: cache) := by
    simp [getGitignoreRulesForPath, hmiss, collectGitignore_eq_spec]
  simp only [shouldIgnoreFile, hrules]
  by_cases hm : env.ignoresMatch
      (specMergedRules env ws ((dirname p).length + 1) (dirname p))
      (relativePosix env.procBase (dirname p) p) = true
  · simp [hm]
  · simp [hm]

/-- Witness for the layered ignore decision at concrete inputs. -/
theorem shouldIgnoreFile_layered_witness :
    (shouldIgnoreFile sampleGitIgnoreEnv "/ws" "/ws/a/b.txt" [] []).1 = true ↔
      (sampleGitIgnoreEnv.ignoresMatch
        (specMergedRules sampleGitIgnoreEnv "/ws"
          ((dirname "/ws/a/b.txt").length + 1) (dirname "/ws/a/b.txt"))
        (relativePosix sampleGitIgnoreEnv.procBase (dirname "/ws/a/b.txt") "/ws/a/b.txt") = true ∨
       sampleGitIgnoreEnv.globMatch "/ws/a/b.txt" [] = true) :=
  shouldIgnoreFile_layered sampleGitIgnoreEnv "/ws" "/ws/a/b.txt" [] [] rfl

/-! # EventSequencer lemmas (for claims C1 and C6) -/

theorem get?_set_self {α : Type} : ∀ (l : List α) (i : Nat) (a : α), i < l.length →
    (l.set i a).get? i = some a := by
  intro l
  induction l with
  | nil => intro i a h; simp at h
  | cons x xs ih =>
    intro i a h
    cases i with
    | zero => rfl
    | succ n => exact ih n a (by simpa using h)

theorem get?_set_of_ne {α : Type} : ∀ (l : List α) (i j : Nat) (a : α), i ≠ j →
    (l.set i a).get? j = l.get? j := by
  intro l
  induction l with
  | nil => intro i j a h; rfl
  | cons x xs ih =>
    intro i j a h
    cases i with
    | zero =>
      cases j with
      | zero => exact absurd rfl h
      | succ m => rfl
    | succ n =>
      cases j with
      | zero => rfl
      | succ m => exact ih n m a (fun e => h (by rw [e]))

theorem get?_replicate {α : Type} : ∀ (n j : Nat) (a : α), j < n →
    (List.replicate n a).get? j = some a := by
  intro n
  induction n with
  | zero => intro j a h; omega
  | succ m ih =>
    intro j a h
    cases j with
    | zero => rfl
    | succ i => exact ih i a (by omega)

theorem lt_of_get?_eq_some {α : Type} {l : List α} {i : Nat} {x : α}
    (h : l.get? i = some x) : i < l.length := by
  by_contra hle
  rw [List.get?_eq_none.mpr (Nat.le_of_not_lt hle)] at h
  cases h

theorem get?_isSome_of_lt {α : Type} {l : List α} {i : Nat} (h : i < l.length) :
    ∃ x, l.get? i = some x := by
  cases hx : l.get? i with
  | none => rw [List.get?_eq_none] at hx; omega
  | some x => exact ⟨x, rfl⟩

theorem settledB_set_of_ne {σ : Type} (tasks : List (QTask σ)) (stats : List TStat)
    (i j : Nat) (v : TStat) (h : i ≠ j) :
    settledB tasks (stats.set i v) j = settledB tasks stats j := by
  unfold settledB
  rw [get?_set_of_ne _ _ _ _ h]

theorem execSteps_zero {σ : Type} (t : QTask σ) (s : σ) : execSteps t 0 s = some s := by
  cases t <;> rfl

theorem runTask_of_execSteps_full {σ : Type} : ∀ (t : QTask σ) (s s2 : σ),
    execSteps t t.length s = some s2 → runTask t s = s2 := by
  intro t
  induction t with
  | nil =>
    intro s s2 h
    cases h
    rfl
  | cons a t2 ih =>
    intro s s2 h
    simp only [List.length_cons, execSteps] at h
    simp only [runTask]
    cases ha : a s with
    | none => rw [ha] at h; cases h
    | some s1 =>
      rw [ha] at h
      exact ih s1 s2 h

theorem runTask_of_execSteps_fault {σ : Type} : ∀ (t : QTask σ) (pc : Nat) (a : Action σ)
    (s s2 : σ), execSteps t pc s = some s2 → t.get? pc = some a → a s2 = none →
    runTask t s = s2 := by
  intro t
  induction t with
  | nil => intro pc a s s2 _ hact _; cases pc <;> cases hact
  | cons a0 t2 ih =>
    intro pc a s s2 hexec hact hres
    cases pc with
    | zero =>
      cases hexec
      have ha : a0 = a := Option.some.inj hact
      simp only [runTask]
      rw [ha, hres]
    | succ m =>
      simp only [execSteps] at hexec
      simp only [runTask]
      cases ha : a0 s with
      | none => rw [ha] at hexec; cases hexec
      | some s1 =>
        rw [ha] at hexec
        exact ih m a s1 s2 hexec hact hres

theorem execSteps_succ {σ : Type} : ∀ (t : QTask σ) (pc : Nat) (a : Action σ) (s s2 s3 : σ),
    execSteps t pc s = some s2 → t.get? pc = some a → a s2 = some s3 →
    execSteps t (pc + 1) s = some s3 := by
  intro t
  induction t with
  | nil => intro pc a s s2 s3 _ hact _; cases pc <;> cases hact
  | cons a0 t2 ih =>
    intro pc a s s2 s3 hexec hact hres
    cases pc with
    | zero =>
      cases hexec
      have ha : a0 = a := Option.some.inj hact
      simp only [execSteps]
      rw [ha, hres]
    | succ m =>
      simp only [execSteps] at hexec ⊢
      cases ha : a0 s with
      | none => rw [ha] at hexec; cases hexec
      | some s1 =>
        rw [ha] at hexec
        exact ih m a s1 s2 s3 hexec hact hres

theorem runAll_append {σ : Type} (l1 l2 : List (QTask σ)) (s : σ) :
    runAll (l1 ++ l2) s = runAll l2 (runAll l1 s) :=
  List.foldl_append _ _ l1 l2

theorem runAll_take_succ {σ : Type} (tasks : List (QTask σ)) (j : Nat) (t : QTask σ)
    (h : tasks.get? j = some t) (s : σ) :
    runAll (tasks.take (j + 1)) s = runTask t (runAll (tasks.take j) s) := by
  have hj : tasks[j]? = some t := by rw [← List.get?_eq_getElem?]; exact h
  rw [List.take_succ, hj, runAll_append]
  rfl

theorem runAll_take_congr {σ : Type} (tasks : List (QTask σ)) (m m2 : Nat) (s : σ)
    (hmm : m ≤ m2) :
    (∀ j, m ≤ j → j < m2 → tasks.get? j = some []) →
    runAll (tasks.take m2) s = runAll (tasks.take m) s := by
  induction m2, hmm using Nat.le_induction with
  | base => intro _; rfl
  | succ m2 hle ih =>
    intro h
    by_cases hlt : m2 < tasks.length
    · rw [runAll_take_succ tasks m2 [] (h m2 hle (by omega))]
      exact ih (fun j hj1 hj2 => h j hj1 (by omega))
    · have h1 : tasks.take (m2 + 1) = tasks := List.take_of_length_le (by omega)
      have h2 : tasks.take m2 = tasks := List.take_of_length_le (by omega)
      calc runAll (tasks.take (m2 + 1)) s = runAll (tasks.take m2) s := by rw [h1, h2]
        _ = runAll (tasks.take m) s := ih (fun j hj1 hj2 => h j hj1 (by omega))

/-- The frontier invariant holds at the initial configuration. -/
theorem inv_init {σ : Type} (tasks : List (QTask σ)) (init : σ) :
    InvAt tasks init 0 (initCfg tasks init) := by
  refine ⟨by simp [initCfg], Nat.zero_le _, fun j hj => absurd hj (Nat.not_lt_zero j),
    ?_, ?_, by simp [initCfg], by simp [initCfg]⟩
  · intro j h0 hlt
    exact get?_replicate _ j _ hlt
  · cases htasks : tasks with
    | nil => exact Or.inl ⟨rfl, rfl⟩
    | cons t ts =>
      exact Or.inr ⟨t, 0, rfl,
        get?_replicate (t :: ts).length 0 (TStat.run 0) (by simp), Nat.zero_le _,
        execSteps_zero t _⟩

theorem settledB_true_elim {σ : Type} {tasks : List (QTask σ)} {stats : List TStat} {j : Nat}
    {ts : TStat} {t : QTask σ} (hs : stats.get? j = some ts) (ht : tasks.get? j = some t)
    (h : settledB tasks stats j = true) : ts.isSettled t.length = true := by
  unfold settledB at h
  rw [hs, ht] at h
  exact h

theorem settledB_true_intro {σ : Type} {tasks : List (QTask σ)} {stats : List TStat} {j : Nat}
    {ts : TStat} {t : QTask σ} (hs : stats.get? j = some ts) (ht : tasks.get? j = some t)
    (h : ts.isSettled t.length = true) : settledB tasks stats j = true := by
  unfold settledB
  rw [hs, ht]
  exact h

/-- Where an enabled runnable task sits relative to the frontier: at the
frontier with its executed prefix equal to the shared state, or strictly
beyond it, unstarted, with every settled task in between empty. -/
theorem frontier_cases {σ : Type} {tasks : List (QTask σ)} {init : σ} {k : Nat} {c : Cfg σ}
    (hinv : InvAt tasks init k c) {i pc : Nat} {t : QTask σ}
    (henabled : ∀ j, j < i → settledB tasks c.stats j = true)
    (hstat : c.stats.get? i = some (TStat.run pc))
    (htask : tasks.get? i = some t)
    (hpc_lt : pc < t.length) :
    k ≤ i ∧
    ((i = k ∧ execSteps t pc (runAll (tasks.take k) init) = some c.st) ∨
     (k < i ∧ pc = 0 ∧ runAll (tasks.take i) init = c.st)) := by
  obtain ⟨hlen, hkle, hsettled, hzero, hdisj, htrace, hsorted⟩ := hinv
  have hi_ltn : i < tasks.length := hlen ▸ lt_of_get?_eq_some hstat
  have hki : k ≤ i := by
    by_contra hik
    push_neg at hik
    have hset := hsettled i hik
    have h2 := settledB_true_elim hstat htask hset
    simp [TStat.isSettled] at h2
    omega
  refine ⟨hki, ?_⟩
  rcases Nat.eq_or_lt_of_le hki with heq | hlt
  · subst heq
    left
    rcases hdisj with ⟨hkn, _⟩ | ⟨tk, pck, htk, hstatk, hpck, hexec⟩
    · omega
    · have ht2 : tk = t := Option.some.inj (htk.symm.trans htask)
      have h1 : TStat.run pck = TStat.run pc := Option.some.inj (hstatk.symm.trans hstat)
      have hp : pck = pc := by injection h1
      subst ht2
      subst hp
      exact ⟨rfl, hexec⟩
  · right
    have hzi := hzero i hlt hi_ltn
    have hpc0 : pc = 0 := by
      have h1 : TStat.run 0 = TStat.run pc := Option.some.inj (hzi.symm.trans hstat)
      injection h1 with h2
      omega
    rcases hdisj with ⟨hkn, _⟩ | ⟨tk, pck, htk, hstatk, hpck, hexec⟩
    · omega
    · have hsetk := henabled k hlt
      have hpck_len : pck = tk.length := by
        have h2 := settledB_true_elim hstatk htk hsetk
        simp [TStat.isSettled] at h2
        exact h2
      have hbase1 : runAll (tasks.take (k + 1)) init = c.st := by
        rw [runAll_take_succ tasks k tk htk]
        exact runTask_of_execSteps_full tk _ _ (by rw [← hpck_len]; exact hexec)
      have hnils : ∀ j, k + 1 ≤ j → j < i → tasks.get? j = some [] := by
        intro j hj1 hj2
        have hjz := hzero j (by omega) (by omega)
        have hjset := henabled j hj2
        obtain ⟨tj, htj⟩ := get?_isSome_of_lt (l := tasks) (i := j) (by omega)
        have h2 := settledB_true_elim hjz htj hjset
        simp [TStat.isSettled] at h2
        have htj0 : tj = [] := List.length_eq_zero.mp (by omega)
        rw [htj, htj0]
      refine ⟨hlt, hpc0, ?_⟩
      rw [runAll_take_congr tasks (k + 1) i init (by omega) hnils]
      exact hbase1

/-- One scheduler step preserves the frontier invariant, and the frontier
never moves backwards. -/
theorem inv_step {σ : Type} (tasks : List (QTask σ)) (init : σ) (k : Nat) (c c2 : Cfg σ)
    (hinv : InvAt tasks init k c) (hstep : ChainStep tasks c c2) :
    ∃ k2, k ≤ k2 ∧ InvAt tasks init k2 c2 := by
  obtain ⟨hlen, hkle, hsettled, hzero, hdisj, htrace, hsorted⟩ := hinv
  cases hstep with
  | exec i pc t a s2 henabled hstat htask hact hres =>
    have hpc_lt : pc < t.length := lt_of_get?_eq_some hact
    have hi_lt : i < c.stats.length := lt_of_get?_eq_some hstat
    have hi_ltn : i < tasks.length := hlen ▸ hi_lt
    obtain ⟨hki, hcase⟩ := frontier_cases
      ⟨hlen, hkle, hsettled, hzero, hdisj, htrace, hsorted⟩ henabled hstat htask hpc_lt
    have hprefix : execSteps t pc (runAll (tasks.take i) init) = some c.st := by
      rcases hcase with ⟨heq, hexec⟩ | ⟨hlt, hpc0, hbase⟩
      · rw [heq]; exact hexec
      · subst hpc0; rw [hbase]; exact execSteps_zero t c.st
    refine ⟨i, hki, ?_, le_of_lt hi_ltn, ?_, ?_, ?_, ?_, ?_⟩
    · rw [List.length_set]; exact hlen
    · intro j hj
      rw [settledB_set_of_ne tasks c.stats i j _ (by omega)]
      exact henabled j hj
    · intro j hj1 hj2
      rw [get?_set_of_ne _ i j _ (by omega)]
      exact hzero j (by omega) hj2
    · exact Or.inr ⟨t, pc + 1, htask, get?_set_self _ i _ hi_lt, Nat.succ_le_of_lt hpc_lt,
        execSteps_succ t pc a _ c.st s2 hprefix hact hres⟩
    · intro x hx
      rcases List.mem_append.mp hx with hx | hx
      · exact le_trans (htrace x hx) hki
      · rw [List.mem_singleton.mp hx]
    · refine List.pairwise_append.mpr ⟨hsorted, by simp, fun x hx y hy => ?_⟩
      rw [List.mem_singleton.mp hy]
      exact le_trans (htrace x hx) hki
  | thrown i pc t a henabled hstat htask hact hres =>
    have hpc_lt : pc < t.length := lt_of_get?_eq_some hact
    have hi_lt : i < c.stats.length := lt_of_get?_eq_some hstat
    have hi_ltn : i < tasks.length := hlen ▸ hi_lt
    obtain ⟨hki, hcase⟩ := frontier_cases
      ⟨hlen, hkle, hsettled, hzero, hdisj, htrace, hsorted⟩ henabled hstat htask hpc_lt
    have hprefix : execSteps t pc (runAll (tasks.take i) init) = some c.st := by
      rcases hcase with ⟨heq, hexec⟩ | ⟨hlt, hpc0, hbase⟩
      · rw [heq]; exact hexec
      · subst hpc0; rw [hbase]; exact execSteps_zero t c.st
    have hrt : runTask t (runAll (tasks.take i) init) = c.st :=
      runTask_of_execSteps_fault t pc a _ c.st hprefix hact hres
    have hsucc : runAll (tasks.take (i + 1)) init = c.st := by
      rw [runAll_take_succ tasks i t htask]; exact hrt
    refine ⟨i + 1, by omega, ?_, Nat.succ_le_of_lt hi_ltn, ?_, ?_, ?_, ?_, ?_⟩
    · rw [List.length_set]; exact hlen
    · intro j hj
      rcases Nat.lt_or_ge j i with hji | hji
      · rw [settledB_set_of_ne tasks c.stats i j _ (by omega)]
        exact henabled j hji
      · have hj_eq : j = i := by omega
        subst hj_eq
        exact settledB_true_intro (get?_set_self _ j _ hi_lt) htask rfl
    · intro j hj1 hj2
      rw [get?_set_of_ne _ i j _ (by omega)]
      exact hzero j (by omega) hj2
    · by_cases hin : i + 1 = tasks.length
      · left
        refine ⟨hin, ?_⟩
        have htake : tasks.take (i + 1) = tasks := List.take_of_length_le (by omega)
        rw [← htake, hsucc]
      · right
        obtain ⟨t2, ht2⟩ := get?_isSome_of_lt (l := tasks) (i := i + 1) (by omega)
        refine ⟨t2, 0, ht2, ?_, Nat.zero_le _, ?_⟩
        · rw [get?_set_of_ne _ i (i + 1) _ (by omega)]
          exact hzero (i + 1) (by omega) (by omega)
        · rw [hsucc]
          exact execSteps_zero t2 c.st
    · intro x hx
      rcases List.mem_append.mp hx with hx | hx
      · exact le_trans (htrace x hx) (by omega)
      · rw [List.mem_singleton.mp hx]; omega
    · refine List.pairwise_append.mpr ⟨hsorted, by simp, fun x hx y hy => ?_⟩
      rw [List.mem_singleton.mp hy]
      exact le_trans (htrace x hx) hki

/-- Every reachable configuration satisfies the frontier invariant. -/
theorem inv_reach {σ : Type} (tasks : List (QTask σ)) (init : σ) (c : Cfg σ)
    (h : ChainReach tasks (initCfg tasks init) c) : ∃ k, InvAt tasks init k c := by
  induction h with
  | refl => exact ⟨0, inv_init tasks init⟩
  | tail hsteps hstep ih =>
    obtain ⟨k, hk⟩ := ih
    obtain ⟨k2, _, hk2⟩ := inv_step tasks init k _ _ hk hstep
    exact ⟨k2, hk2⟩

/-- In every complete run, the shared state equals the sequential
composition of the tasks in submission order, and the trace of executed
slices is sorted by task index: tasks never interleave and run in the exact
order they were submitted. -/
theorem chain_final_state {σ : Type} (tasks : List (QTask σ)) (init : σ) (c : Cfg σ)
    (h : ChainReach tasks (initCfg tasks init) c) (hall : AllSettled tasks c) :
    c.st = runAll tasks init ∧ List.Pairwise (fun a b => a ≤ b) c.trace := by
  obtain ⟨k, hlen, hkle, hsettled, hzero, hdisj, htrace, hsorted⟩ := inv_reach tasks init c h
  refine ⟨?_, hsorted⟩
  rcases hdisj with ⟨hkn, hst⟩ | ⟨t, pc, htk, hstatk, hpck, hexec⟩
  · exact hst
  · have hk_lt : k < tasks.length := lt_of_get?_eq_some htk
    have hsetk := hall k hk_lt
    have hpc : pc = t.length := by
      have h2 := settledB_true_elim hstatk htk hsetk
      simp [TStat.isSettled] at h2
      exact h2
    have h1 : runAll (tasks.take (k + 1)) init = c.st := by
      rw [runAll_take_succ tasks k t htk]
      exact runTask_of_execSteps_full t _ _ (by rw [← hpc]; exact hexec)
    have hnils : ∀ j, k + 1 ≤ j → j < tasks.length → tasks.get? j = some [] := by
      intro j hj1 hj2
      have hjz := hzero j (by omega) hj2
      have hjset := hall j hj2
      obtain ⟨tj, htj⟩ := get?_isSome_of_lt (l := tasks) (i := j) hj2
      have h2 := settledB_true_elim hjz htj hjset
      simp [TStat.isSettled] at h2
      have htj0 : tj = [] := List.length_eq_zero.mp (by omega)
      rw [htj, htj0]
    have h3 := runAll_take_congr tasks (k + 1) tasks.length init (by omega) hnils
    have h4 : tasks.take tasks.length = tasks := List.take_of_length_le (le_refl _)
    rw [← h4, h3, h1]

theorem totalRem_set {σ : Type} : ∀ (tasks : List (QTask σ)) (stats : List TStat) (j : Nat)
    (t : QTask σ) (st v : TStat), tasks.get? j = some t → stats.get? j = some st →
    totalRem tasks (stats.set j v) + remOne t st = totalRem tasks stats + remOne t v := by
  intro tasks
  induction tasks with
  | nil => intro stats j t st v ht _; cases j <;> cases ht
  | cons t0 ts ih =>
    intro stats j t st v ht hs
    cases stats with
    | nil => cases j <;> cases hs
    | cons s0 ss =>
      cases j with
      | zero =>
        have ht0 : t0 = t := Option.some.inj ht
        have hs0 : s0 = st := Option.some.inj hs
        subst ht0
        subst hs0
        simp only [List.set, totalRem]
        omega
      | succ m =>
        have h2 := ih ss m t st v ht hs
        simp only [List.set, totalRem]
        omega

/-- Every scheduler step strictly decreases the remaining slice count. -/
theorem chainStep_totalRem {σ : Type} (tasks : List (QTask σ)) (c c2 : Cfg σ)
    (hstep : ChainStep tasks c c2) : totalRem tasks c2.stats < totalRem tasks c.stats := by
  cases hstep with
  | exec i pc t a s2 henabled hstat htask hact hres =>
    have h := totalRem_set tasks c.stats i t (TStat.run pc) (TStat.run (pc + 1)) htask hstat
    have hpc : pc < t.length := lt_of_get?_eq_some hact
    simp only [remOne] at h
    show totalRem tasks (c.stats.set i (TStat.run (pc + 1))) < totalRem tasks c.stats
    omega
  | thrown i pc t a henabled hstat htask hact hres =>
    have h := totalRem_set tasks c.stats i t (TStat.run pc) (TStat.fault pc) htask hstat
    have hpc : pc < t.length := lt_of_get?_eq_some hact
    simp only [remOne] at h
    show totalRem tasks (c.stats.set i (TStat.fault pc)) < totalRem tasks c.stats
    omega

/-- A reachable configuration that is not fully settled can always take a
step: the queue is never stuck. -/
theorem chain_no_deadlock {σ : Type} (tasks : List (QTask σ)) (init : σ) (k : Nat) (c : Cfg σ)
    (hinv : InvAt tasks init k c) (hnot : ¬AllSettled tasks c) :
    ∃ c2, ChainStep tasks c c2 := by
  obtain ⟨hlen, hkle, hsettled, hzero, hdisj, htrace, hsorted⟩ := hinv
  have hexlt : ∃ j, j < tasks.length ∧ settledB tasks c.stats j = false := by
    by_contra hallc
    push_neg at hallc
    apply hnot
    intro j hj
    rcases Bool.eq_false_or_eq_true (settledB tasks c.stats j) with ht | hf
    · exact ht
    · exact absurd hf (hallc j hj)
  have hex : ∃ j, settledB tasks c.stats j = false := hexlt.elim (fun j hj => ⟨j, hj.2⟩)
  obtain ⟨j1, hj1lt, hj1⟩ := hexlt
  have hj0 : settledB tasks c.stats (Nat.find hex) = false := Nat.find_spec hex
  have hmin : ∀ j2, j2 < Nat.find hex → settledB tasks c.stats j2 = true := by
    intro j2 h2
    have h3 := Nat.find_min hex h2
    rcases Bool.eq_false_or_eq_true (settledB tasks c.stats j2) with ht | hf
    · exact ht
    · exact absurd hf h3
  have hj0le : Nat.find hex ≤ j1 := Nat.find_min' hex hj1
  have hj0lt : Nat.find hex < tasks.length := lt_of_le_of_lt hj0le hj1lt
  obtain ⟨t, ht⟩ := get?_isSome_of_lt (l := tasks) hj0lt
  obtain ⟨ts, hts⟩ := get?_isSome_of_lt (l := c.stats) (i := Nat.find hex) (by omega)
  have hsetfalse : ts.isSettled t.length = false := by
    unfold settledB at hj0
    rw [hts, ht] at hj0
    exact hj0
  cases ts with
  | fault pc => simp [TStat.isSettled] at hsetfalse
  | run pc =>
    have hpc_ne : (pc == t.length) = false := hsetfalse
    have hpc_le : pc ≤ t.length := by
      have hki : k ≤ Nat.find hex := by
        by_contra hik
        push_neg at hik
        rw [hsettled (Nat.find hex) hik] at hj0
        cases hj0
      rcases Nat.eq_or_lt_of_le hki with heq | hlt
      · rcases hdisj with ⟨hkn, _⟩ | ⟨tk, pck, htk, hstatk, hpck, hexec⟩
        · omega
        · rw [← heq] at hts
          have h1 : TStat.run pck = TStat.run pc := Option.some.inj (hstatk.symm.trans hts)
          injection h1 with h2
          rw [← heq, htk] at ht
          have h3 : tk = t := Option.some.inj ht
          subst h3
          omega
      · have hz := hzero (Nat.find hex) hlt hj0lt
        have h1 : TStat.run 0 = TStat.run pc := Option.some.inj (hz.symm.trans hts)
        injection h1 with h2
        omega
    have hpc_lt : pc < t.length := by
      rcases Nat.eq_or_lt_of_le hpc_le with heq | hlt2
      · rw [heq] at hpc_ne
        simp at hpc_ne
      · exact hlt2
    obtain ⟨a, ha⟩ := get?_isSome_of_lt (l := t) hpc_lt
    cases hres : a c.st with
    | some s2 => exact ⟨_, ChainStep.exec c (Nat.find hex) pc t a s2 hmin hts ht ha hres⟩
    | none => exact ⟨_, ChainStep.thrown c (Nat.find hex) pc t a hmin hts ht ha hres⟩

/-- From any invariant configuration a fully settled configuration is
reachable. -/
theorem chain_progress_aux {σ : Type} (tasks : List (QTask σ)) (init : σ) :
    ∀ (N : Nat) (c : Cfg σ) (k : Nat), InvAt tasks init k c → totalRem tasks c.stats ≤ N →
    ∃ c2, ChainReach tasks c c2 ∧ AllSettled tasks c2 := by
  intro N
  induction N with
  | zero =>
    intro c k hinv hrem
    by_cases hall : AllSettled tasks c
    · exact ⟨c, Relation.ReflTransGen.refl, hall⟩
    · obtain ⟨c2, hstep⟩ := chain_no_deadlock tasks init k c hinv hall
      have := chainStep_totalRem tasks c c2 hstep
      omega
  | succ n ih =>
    intro c k hinv hrem
    by_cases hall : AllSettled tasks c
    · exact ⟨c, Relation.ReflTransGen.refl, hall⟩
    · obtain ⟨c2, hstep⟩ := chain_no_deadlock tasks init k c hinv hall
      obtain ⟨k2, _, hinv2⟩ := inv_step tasks init k c c2 hinv hstep
      have hdec := chainStep_totalRem tasks c c2 hstep
      obtain ⟨c3, hreach, hall3⟩ := ih c2 k2 hinv2 (by omega)
      exact ⟨c3, Relation.ReflTransGen.head hstep hreach, hall3⟩

/-- From any reachable configuration the queue can run to completion. -/
theorem chain_progress {σ : Type} (tasks : List (QTask σ)) (init : σ) (c : Cfg σ)
    (h : ChainReach tasks (initCfg tasks init) c) :
    ∃ c2, ChainReach tasks c c2 ∧ AllSettled tasks c2 := by
  obtain ⟨k, hinv⟩ := inv_reach tasks init c h
  exact chain_progress_aux tasks init (totalRem tasks c.stats) c k hinv (le_refl _)

theorem runTask_createTask (env : Env) (p : String) (s : TrackerState) :
    runTask (createTask env p) s = onCreateEffect env p s := by
  cases hig : env.ignoreGlob p <;> simp [createTask, onCreateEffect, hig, runTask]

theorem runTask_deleteTask (env : Env) (p : String) (s : TrackerState) :
    runTask (deleteTask env p) s = onDeleteEffect env p s := by
  simp [deleteTask, runTask]

theorem removeFilePath_filePaths (env : Env) (p : String) (s : TrackerState) :
    (removeFilePath env p s).1.filePaths =
      (if normalizeFilePath env.base p ∈ s.filePaths
       then setDel s.filePaths (normalizeFilePath env.base p)
       else setDel s.filePaths (normalizeFilePath env.base p ++ "/")) := by
  by_cases hmem : normalizeFilePath env.base p ∈ s.filePaths <;>
  · simp only [removeFilePath, hmem]
    repeat' split
    all_goals simp_all [setDel_of_not_mem]

theorem onDeleteEffect_filePaths (env : Env) (p : String) (s : TrackerState)
    (hig : env.ignoreGlob p = false) :
    (onDeleteEffect env p s).filePaths =
      (if normalizeFilePath env.base p ∈ s.filePaths
       then setDel s.filePaths (normalizeFilePath env.base p)
       else setDel s.filePaths (normalizeFilePath env.base p ++ "/")) := by
  simp only [onDeleteEffect, hig, Bool.false_eq_true, if_false]
  split
  · rw [trigger_filePaths, removeFilePath_filePaths]
    rfl
  · rw [removeFilePath_filePaths]
    rfl

theorem addFilePath_filePaths (env : Env) (p : String) (s : TrackerState) :
    (addFilePath env p s).filePaths = setAdd s.filePaths (addedEntry env p) := by
  simp only [addFilePath, addedEntry]
  cases env.statResult (normalizeFilePath env.base p) with
  | none => rfl
  | some b =>
    repeat' split
    all_goals simp_all

theorem addedEntry_cases (env : Env) (p : String) :
    addedEntry env p = normalizeFilePath env.base p ∨
    addedEntry env p = normalizeFilePath env.base p ++ "/" := by
  simp only [addedEntry]
  cases env.statResult (normalizeFilePath env.base p) with
  | none => exact Or.inl rfl
  | some b =>
    by_cases hb : (b && !endsWithSlash (normalizeFilePath env.base p)) = true
    · refine Or.inr ?_
      show (if (b && !endsWithSlash (normalizeFilePath env.base p)) = true
        then normalizeFilePath env.base p ++ "/" else normalizeFilePath env.base p) =
        normalizeFilePath env.base p ++ "/"
      rw [if_pos hb]
    · refine Or.inl ?_
      show (if (b && !endsWithSlash (normalizeFilePath env.base p)) = true
        then normalizeFilePath env.base p ++ "/" else normalizeFilePath env.base p) =
        normalizeFilePath env.base p
      rw [if_neg hb]

theorem onCreateEffect_filePaths (env : Env) (p : String) (s : TrackerState)
    (hig : env.ignoreGlob p = false) :
    (onCreateEffect env p s).filePaths = setAdd s.filePaths (addedEntry env p) := by
  simp only [onCreateEffect, hig, Bool.false_eq_true, if_false]
  rw [trigger_filePaths, addFilePath_filePaths]
  rfl

/-- The create-then-delete scenario: after both handler tasks run in order,
the path is tracked in neither plain nor directory form, whatever the stat
probe reported and however the ignore filter decided. -/
theorem create_delete_scenario (env : Env) (a : String) (s0 : TrackerState)
    (h1 : normalizeFilePath env.base a ∉ s0.filePaths)
    (h2 : normalizeFilePath env.base a ++ "/" ∉ s0.filePaths) :
    normalizeFilePath env.base a ∉ (onDeleteEffect env a (onCreateEffect env a s0)).filePaths ∧
    normalizeFilePath env.base a ++ "/" ∉
      (onDeleteEffect env a (onCreateEffect env a s0)).filePaths := by
  cases hig : env.ignoreGlob a with
  | true =>
    have hc : onCreateEffect env a s0 = incrementEventAndDetectFlood s0 := by
      simp [onCreateEffect, hig]
    have hd : onDeleteEffect env a (incrementEventAndDetectFlood s0) =
        incrementEventAndDetectFlood (incrementEventAndDetectFlood s0) := by
      simp [onDeleteEffect, hig]
    rw [hc, hd]
    exact ⟨h1, h2⟩
  | false =>
    have hfin : (onDeleteEffect env a (onCreateEffect env a s0)).filePaths = s0.filePaths := by
      rw [onDeleteEffect_filePaths env a _ hig, onCreateEffect_filePaths env a s0 hig]
      rcases addedEntry_cases env a with hw | hw
      · rw [hw, if_pos (mem_setAdd.mpr (Or.inr rfl))]
        exact setDel_setAdd_self h1
      · rw [hw]
        have hnm : normalizeFilePath env.base a ∉
            setAdd s0.filePaths (normalizeFilePath env.base a ++ "/") := by
          intro hmem
          rcases mem_setAdd.mp hmem with h | h
          · exact h1 h
          · exact ne_append_slash _ h
        rw [if_neg hnm]
        exact setDel_setAdd_self h2
    rw [hfin]
    exact ⟨h1, h2⟩

/-! # Claim C1 -/

/-- The queued full re-scan escapes the chain, refuting the claim that no
two queued tasks, the queued full re-scan included, execute concurrently.
The timer callback queues a task that calls `initializeFilePaths` without
awaiting it, so that task settles at the first await of the re-scan and the
rest of the re-scan runs as a detached continuation.  In the faithful model
there is a complete valid execution in which a later-submitted create task
runs in full while the re-scan is suspended at its listing await, and the
resumed continuation then replaces the path set: every chained task has
settled and no continuation is left pending, yet the final PathSet has lost
the created entry, while sequential execution of the same two tasks in
submission order retains it. -/
theorem rescan_wrapper_escapes_chain :
    DReach [rescanWrapperTask sampleEnv, createTaskD sampleEnv "b"]
      (initDCfg [rescanWrapperTask sampleEnv, createTaskD sampleEnv "b"]
        { initTrackerState with needReInit := true })
      ⟨[TStat.run 1, TStat.run 2], escapedFinalState, [], [0, 1, 1]⟩ ∧
    settledD [rescanWrapperTask sampleEnv, createTaskD sampleEnv "b"]
      [TStat.run 1, TStat.run 2] 0 = true ∧
    settledD [rescanWrapperTask sampleEnv, createTaskD sampleEnv "b"]
      [TStat.run 1, TStat.run 2] 1 = true ∧
    normalizeFilePath sampleEnv.base "b" ∉ escapedFinalState.filePaths ∧
    normalizeFilePath sampleEnv.base "b" ∈
      (onCreateEffect sampleEnv "b"
        (initializeFilePaths sampleEnv { initTrackerState with needReInit := true })).filePaths := by
  refine ⟨?_, by decide, by decide, by decide, by decide⟩
  have hstep1 : DStep [rescanWrapperTask sampleEnv, createTaskD sampleEnv "b"]
      (initDCfg [rescanWrapperTask sampleEnv, createTaskD sampleEnv "b"]
        { initTrackerState with needReInit := true })
      ⟨[TStat.run 1, TStat.run 0], { initTrackerState with needReInit := true },
        [rescanCont sampleEnv], [0]⟩ :=
    DStep.execSlice _ 0 0 (rescanWrapperTask sampleEnv)
      (fun s => ({ s with filePaths := [] }, [rescanCont sampleEnv]))
      (fun j hj => absurd hj (Nat.not_lt_zero j)) rfl rfl rfl
  have hstep2 : DStep [rescanWrapperTask sampleEnv, createTaskD sampleEnv "b"]
      ⟨[TStat.run 1, TStat.run 0], { initTrackerState with needReInit := true },
        [rescanCont sampleEnv], [0]⟩
      ⟨[TStat.run 1, TStat.run 1],
        { initTrackerState with needReInit := true, eventCount := 1 },
        [rescanCont sampleEnv], [0, 1]⟩ :=
    DStep.execSlice _ 1 0 (createTaskD sampleEnv "b")
      (fun s => (incrementEventAndDetectFlood s, []))
      (fun j hj => match j, hj with
        | 0, _ => rfl
        | n + 1, h => absurd h (by omega)) rfl rfl rfl
  have hstep3 : DStep [rescanWrapperTask sampleEnv, createTaskD sampleEnv "b"]
      ⟨[TStat.run 1, TStat.run 1],
        { initTrackerState with needReInit := true, eventCount := 1 },
        [rescanCont sampleEnv], [0, 1]⟩
      ⟨[TStat.run 1, TStat.run 2],
        { initTrackerState with
            needReInit := true,
            eventCount := 1,
            filePaths := ["/ws/b"],
            timerActive := true },
        [rescanCont sampleEnv], [0, 1, 1]⟩ :=
    DStep.execSlice _ 1 1 (createTaskD sampleEnv "b")
      (fun s => (triggerWorkspaceDidUpdate (addFilePath sampleEnv "b" s), []))
      (fun j hj => match j, hj with
        | 0, _ => rfl
        | n + 1, h => absurd h (by omega)) rfl rfl rfl
  have hstep4 : DStep [rescanWrapperTask sampleEnv, createTaskD sampleEnv "b"]
      ⟨[TStat.run 1, TStat.run 2],
        { initTrackerState with
            needReInit := true,
            eventCount := 1,
            filePaths := ["/ws/b"],
            timerActive := true },
        [rescanCont sampleEnv], [0, 1, 1]⟩
      ⟨[TStat.run 1, TStat.run 2], escapedFinalState, [], [0, 1, 1]⟩ :=
    DStep.resume _ (rescanCont sampleEnv) [] rfl
  exact Relation.ReflTransGen.tail (Relation.ReflTransGen.tail
    (Relation.ReflTransGen.tail (Relation.ReflTransGen.tail
      Relation.ReflTransGen.refl hstep1) hstep2) hstep3) hstep4

/-- Claim C1 (amended): the EventSequencer serializes every queued task
whose asynchronous work is awaited inside the task body — as all three
watcher-event handler tasks do, so their slices all stay on the chain.  In
every complete run of the chained scheduler, whatever the interleaving
freedom left by suspension points, the executed-slice trace is sorted by
submission index (such tasks run in submission order and never
concurrently) and the final state is their sequential composition; in
particular, for create(a) then delete(a) submitted in that order, the final
PathSet holds the path in neither plain nor directory form, however long
the status probe of the create takes.  The queued full re-scan is excluded
from this guarantee: its wrapper task does not await `initializeFilePaths`,
so only the synchronous prefix of the re-scan is serialized and the
remainder escapes the chain, as the counterexample run shows. -/
theorem eventSequencer_serializes :
    (∀ (σ : Type) (tasks : List (QTask σ)) (init : σ) (c : Cfg σ),
        ChainReach tasks (initCfg tasks init) c → AllSettled tasks c →
        (c.st = runAll tasks init ∧ List.Pairwise (fun i j => i ≤ j) c.trace)) ∧
    (∀ (env : Env) (a : String) (s0 : TrackerState) (c : Cfg TrackerState),
        normalizeFilePath env.base a ∉ s0.filePaths →
        normalizeFilePath env.base a ++ "/" ∉ s0.filePaths →
        ChainReach [createTask env a, deleteTask env a]
          (initCfg [createTask env a, deleteTask env a] s0) c →
        AllSettled [createTask env a, deleteTask env a] c →
        (normalizeFilePath env.base a ∉ c.st.filePaths ∧
         normalizeFilePath env.base a ++ "/" ∉ c.st.filePaths)) := by
  refine ⟨fun σ tasks init c hreach hall => chain_final_state tasks init c hreach hall, ?_⟩
  intro env a s0 c hm1 hm2 hreach hall
  have hst := (chain_final_state _ s0 c hreach hall).1
  have hrun : runAll [createTask env a, deleteTask env a] s0 =
      onDeleteEffect env a (onCreateEffect env a s0) := by
    show runTask (deleteTask env a) (runTask (createTask env a) s0) = _
    rw [runTask_createTask, runTask_deleteTask]
  rw [hst, hrun]
  exact create_delete_scenario env a s0 hm1 hm2

/-- Witness: a concrete complete two-task run of the sequencer. -/
theorem eventSequencer_serializes_witness :
    normalizeFilePath sampleEnvIgnore.base "a" ∉
      (Cfg.st (σ := TrackerState)
        ⟨[TStat.run 1, TStat.run 1],
         onDeleteEffect sampleEnvIgnore "a" (incrementEventAndDetectFlood initTrackerState),
         [0, 1]⟩).filePaths ∧
    normalizeFilePath sampleEnvIgnore.base "a" ++ "/" ∉
      (Cfg.st (σ := TrackerState)
        ⟨[TStat.run 1, TStat.run 1],
         onDeleteEffect sampleEnvIgnore "a" (incrementEventAndDetectFlood initTrackerState),
         [0, 1]⟩).filePaths := by
  have hstep1 : ChainStep [createTask sampleEnvIgnore "a", deleteTask sampleEnvIgnore "a"]
      (initCfg [createTask sampleEnvIgnore "a", deleteTask sampleEnvIgnore "a"] initTrackerState)
      ⟨[TStat.run 1, TStat.run 0], incrementEventAndDetectFlood initTrackerState, [0]⟩ :=
    ChainStep.exec _ 0 0 (createTask sampleEnvIgnore "a")
      (fun s => some (incrementEventAndDetectFlood s))
      (incrementEventAndDetectFlood initTrackerState)
      (fun j hj => absurd hj (Nat.not_lt_zero j)) rfl rfl rfl rfl
  have hstep2 : ChainStep [createTask sampleEnvIgnore "a", deleteTask sampleEnvIgnore "a"]
      ⟨[TStat.run 1, TStat.run 0], incrementEventAndDetectFlood initTrackerState, [0]⟩
      ⟨[TStat.run 1, TStat.run 1],
        onDeleteEffect sampleEnvIgnore "a" (incrementEventAndDetectFlood initTrackerState),
        [0, 1]⟩ :=
    ChainStep.exec _ 1 0 (deleteTask sampleEnvIgnore "a")
      (fun s => some (onDeleteEffect sampleEnvIgnore "a" s))
      (onDeleteEffect sampleEnvIgnore "a" (incrementEventAndDetectFlood initTrackerState))
      (fun j hj => match j, hj with
        | 0, _ => rfl
        | n + 1, h => absurd h (by omega)) rfl rfl rfl rfl
  have hreach := Relation.ReflTransGen.tail
    (Relation.ReflTransGen.tail Relation.ReflTransGen.refl hstep1) hstep2
  have hall : AllSettled [createTask sampleEnvIgnore "a", deleteTask sampleEnvIgnore "a"]
      ⟨[TStat.run 1, TStat.run 1],
        onDeleteEffect sampleEnvIgnore "a" (incrementEventAndDetectFlood initTrackerState),
        [0, 1]⟩ := by
    intro j hj
    have hj2 : j < 2 := by simpa using hj
    match j, hj2 with
    | 0, _ => rfl
    | 1, _ => rfl
    | n + 2, h => exact absurd h (by omega)
  exact eventSequencer_serializes.2 sampleEnvIgnore "a" initTrackerState _
    (by decide) (by decide) hreach hall

/-! # Claim C6 -/

/-- Claim C6: a queued task that throws or rejects is caught and discarded
at the task boundary.  From any reachable configuration the queue can still
run to completion (a failure never sticks the queue), and in every complete
run of a queue whose middle task faults at its first slice, the final state
is exactly the surrounding tasks composed in order: the failure does not
propagate, the faulting task contributes nothing further, and it is not
retried. -/
theorem queue_fault_isolated :
    (∀ (σ : Type) (tasks : List (QTask σ)) (init : σ) (c : Cfg σ),
        ChainReach tasks (initCfg tasks init) c →
        ∃ c2, ChainReach tasks c c2 ∧ AllSettled tasks c2) ∧
    (∀ (σ : Type) (pre post : List (QTask σ)) (a : Action σ) (rest : QTask σ) (init : σ)
        (c : Cfg σ),
        a (runAll pre init) = none →
        ChainReach (pre ++ (a :: rest) :: post) (initCfg (pre ++ (a :: rest) :: post) init) c →
        AllSettled (pre ++ (a :: rest) :: post) c →
        c.st = runAll post (runAll pre init)) := by
  refine ⟨fun σ tasks init c h => chain_progress tasks init c h, ?_⟩
  intro σ pre post aa rest init c hfault hreach hall
  have hst := (chain_final_state _ init c hreach hall).1
  rw [hst, runAll_append]
  show runAll post (runTask (aa :: rest) (runAll pre init)) = runAll post (runAll pre init)
  rw [show runTask (aa :: rest) (runAll pre init) = runAll pre init from by
    simp only [runTask, hfault]]

/-- Witness: a queue whose first task throws still runs the second task. -/
theorem queue_fault_isolated_witness :
    Cfg.st (σ := Nat) ⟨[TStat.fault 0, TStat.run 1], 1, [0, 1]⟩ =
      runAll [[fun n => some (n + 1)]] (runAll ([] : List (QTask Nat)) 0) := by
  have hstep1 : ChainStep [[(fun _ => none : Action Nat)], [fun n => some (n + 1)]]
      (initCfg [[(fun _ => none : Action Nat)], [fun n => some (n + 1)]] 0)
      ⟨[TStat.fault 0, TStat.run 0], 0, [0]⟩ :=
    ChainStep.thrown _ 0 0 [(fun _ => none : Action Nat)] (fun _ => none)
      (fun j hj => absurd hj (Nat.not_lt_zero j)) rfl rfl rfl rfl
  have hstep2 : ChainStep [[(fun _ => none : Action Nat)], [fun n => some (n + 1)]]
      ⟨[TStat.fault 0, TStat.run 0], 0, [0]⟩
      ⟨[TStat.fault 0, TStat.run 1], 1, [0, 1]⟩ :=
    ChainStep.exec _ 1 0 [fun n => some (n + 1)] (fun n => some (n + 1)) 1
      (fun j hj => match j, hj with
        | 0, _ => rfl
        | n + 1, h => absurd h (by omega)) rfl rfl rfl rfl
  have hreach := Relation.ReflTransGen.tail
    (Relation.ReflTransGen.tail Relation.ReflTransGen.refl hstep1) hstep2
  have hall : AllSettled [[(fun _ => none : Action Nat)], [fun n => some (n + 1)]]
      ⟨[TStat.fault 0, TStat.run 1], 1, [0, 1]⟩ := by
    intro j hj
    have hj2 : j < 2 := by simpa using hj
    match j, hj2 with
    | 0, _ => rfl
    | 1, _ => rfl
    | n + 2, h => exact absurd h (by omega)
  exact queue_fault_isolated.2 Nat [] [[fun n => some (n + 1)]] (fun _ => none) [] 0
    ⟨[TStat.fault 0, TStat.run 1], 1, [0, 1]⟩ rfl hreach hall

/-- Witness for the untracked-deletion behaviour at concrete inputs. -/
theorem untracked_delete_flags_without_timer_witness :
    (onDeleteEffect sampleEnv "b" initTrackerState).needReInit = true ∧
    (onDeleteEffect sampleEnv "b" initTrackerState).timerActive = initTrackerState.timerActive ∧
    (onDeleteEffect sampleEnv "b" initTrackerState).messages = initTrackerState.messages ∧
    (onDeleteEffect sampleEnv "b" initTrackerState).filePaths = initTrackerState.filePaths ∧
    (onDeleteEffect sampleEnv "b" initTrackerState).eventCount = initTrackerState.eventCount + 1 :=
  untracked_delete_flags_without_timer sampleEnv "b" initTrackerState rfl (by decide) (by decide)

end Cline
